import Mathlib

/-!
Verification development for the streaming analysis frontend of the
ai-hedge-fund repository (TypeScript).  JavaScript strings are embedded as
`List Char` where character-level operations (trim, upper-case, splitting)
matter, and as Lean `String` where only whole-key equality matters.
JavaScript numbers are embedded as exact rationals (`ℚ`); the arithmetic the
claims exercise stays within ranges where IEEE doubles are exact or the
comparison is unaffected by rounding.  Fallible operations return `Option`.
-/

/-- JavaScript string, character level. -/
abbrev JStr := List Char

/-- Whitespace test used by the model of JavaScript `String.prototype.trim`
(ASCII whitespace; the inputs in this code base are ASCII). -/
def isSpaceChar (c : Char) : Bool :=
  c = ' ' || c = '\t' || c = '\n' || c = '\r'

/-- Model of JavaScript `s.trim()`: strip leading and trailing whitespace. -/
def jsTrim (s : JStr) : JStr :=
  ((s.dropWhile isSpaceChar).reverse.dropWhile isSpaceChar).reverse

/-- Upper-case one character, ASCII model of JavaScript `toUpperCase`. -/
def upChar (c : Char) : Char :=
  if 'a' ≤ c ∧ c ≤ 'z' then Char.ofNat (c.toNat - 32) else c

/-- Model of JavaScript `s.toUpperCase()` (ASCII). -/
def jsToUpper (s : JStr) : JStr := s.map upChar

/-- Model of JavaScript `s.split(',')`. -/
def splitComma : JStr → List JStr
  | [] => [[]]
  | c :: r =>
    match splitComma r with
    | [] => [[c]]
    | h :: t => if c = ',' then [] :: h :: t else (c :: h) :: t

/-! ## Watchlist operations (App.tsx, handleAddToWatchlist / handleRemoveFromWatchlist)

`handleAddToWatchlist` normalises the input with `trim().toUpperCase()`,
appends it when non-empty and not already present (clearing the input and
returning `true`), and otherwise leaves everything unchanged and returns
`false`.  `handleRemoveFromWatchlist` filters out every occurrence. -/

/-- `handleAddToWatchlist` from App.tsx: returns (success, new watchlist,
new value of the ticker input field). -/
def addToWatchlist (watchlist : List JStr) (input : JStr) :
    Bool × List JStr × JStr :=
  let newTicker := jsToUpper (jsTrim input)
  if newTicker ≠ [] ∧ newTicker ∉ watchlist then
    (true, watchlist ++ [newTicker], [])
  else
    (false, watchlist, input)

/-- `handleRemoveFromWatchlist` from App.tsx:
`watchlist.filter(ticker => ticker !== tickerToRemove)`. -/
def removeFromWatchlist (watchlist : List JStr) (t : JStr) : List JStr :=
  watchlist.filter (fun x => x ≠ t)

/-- The initial watchlist state in App.tsx: `['AAPL', 'TSLA']`. -/
def initialWatchlist : List JStr := ["AAPL".toList, "TSLA".toList]

/-! ## Ticker validation (AnalysisForm: validateTicker / tickerValidation)
and the request body tickers of SimpleRunForm.handleSubmit. -/

/-- `'A' ≤ c ≤ 'Z'`. -/
def isAZ (c : Char) : Bool := 'A' ≤ c && c ≤ 'Z'

/-- The regular expression `^[A-Z]\x7b1,5\x7d(\.[A-Z])?$` as a matcher:
one to five capital letters, optionally followed by a dot and one capital
letter. -/
def tickerPattern (s : JStr) : Bool :=
  let letters := s.takeWhile isAZ
  let rest := s.drop letters.length
  let lenOK := decide (1 ≤ letters.length) && decide (letters.length ≤ 5)
  match rest with
  | [] => lenOK
  | [d, c] => lenOK && d = '.' && isAZ c
  | _ => false

/-- `validateTicker` from the AnalysisForm component:
test the pattern on `ticker.trim().toUpperCase()`. -/
def validateTicker (t : JStr) : Bool :=
  tickerPattern (jsToUpper (jsTrim t))

/-- The `tickerList` of `tickerValidation`:
`tickers.split(',').map(t => t.trim()).filter(Boolean)`. -/
def tickerListOf (input : JStr) : List JStr :=
  ((splitComma input).map jsTrim).filter (fun t => t ≠ [])

/-- The `valid` array of `tickerValidation`: tickers passing `validateTicker`,
pushed as `ticker.toUpperCase()` in iteration order. -/
def validTickers (input : JStr) : List JStr :=
  ((tickerListOf input).filter validateTicker).map jsToUpper

/-- The `invalid` array of `tickerValidation`. -/
def invalidTickers (input : JStr) : List JStr :=
  (tickerListOf input).filter (fun t => ¬ validateTicker t)

/-- The `isValid` flag of `tickerValidation`:
`invalidTickers.length === 0 && validTickers.length > 0`.  `handleStartAnalysis`
sends the run request with `tickers: tickerValidation.valid` only when this
flag holds (and some agent is selected). -/
def tickersValid (input : JStr) : Bool :=
  invalidTickers input = [] && validTickers input ≠ []

/-- The tickers list built by SimpleRunForm.handleSubmit for the request body:
`tickers.split(',').map(t => t.trim()).filter(t => t.length > 0)` —
no upper-casing and no deduplication. -/
def requestTickersSimple (input : JStr) : List JStr :=
  ((splitComma input).map jsTrim).filter (fun t => t.length > 0)

/-! ## Result merge (App.tsx, runWatchlistAnalysisHandler, `complete` branch)

The handler iterates `Object.entries(eventData.data.analyst_signals)`, binds
the OUTER key as `ticker` and each INNER key as `agentName`, builds one
`AnalysisDataItem` per outer key, and replaces an existing entry with the
same `ticker` (via `findIndex`) or pushes a new one.  JavaScript object
entries are embedded as association lists in key order. -/

/-- An agent signal as found on the wire: `\x7bsignal, confidence, reasoning\x7d`
(each possibly absent). -/
structure WireSignal where
  signal : Option String
  confidence : Option ℚ
  reasoning : Option String
deriving DecidableEq

/-- `AgentSignalDetail` from App.tsx. -/
structure AgentSignalDetail where
  agent_name : String
  signal : Option String
  confidence : Option ℚ
  reasoning : Option String
deriving DecidableEq

/-- `AnalysisDataItem` from App.tsx (fields used by the merge). -/
structure AnalysisDataItem where
  ticker : String
  signal : Option String
  confidence : Option ℚ
  agent_signals : List AgentSignalDetail
deriving DecidableEq

/-- One element of `transformedAgentSignalsArray`: the inner entry key becomes
`agent_name` and the signal fields are copied. -/
def toDetail (agentName : String) (sd : WireSignal) : AgentSignalDetail :=
  ⟨agentName, sd.signal, sd.confidence, sd.reasoning⟩

/-- The `newItem` built for one outer entry `(ticker, agentSignalsForTicker)`:
`signal: null, confidence: null`, `agent_signals` mapped from the inner
entries. -/
def mkItem (t : String) (sigs : List (String × WireSignal)) : AnalysisDataItem :=
  ⟨t, none, none, sigs.map (fun p => toDetail p.1 p.2)⟩

/-- The replace-or-push step:
`findIndex(item => item.ticker === ticker)`, replace at that index if found,
else push. -/
def upsertItem (cur : List AnalysisDataItem) (item : AnalysisDataItem) :
    List AnalysisDataItem :=
  match cur.findIdx? (fun e => e.ticker = item.ticker) with
  | some i => cur.set i item
  | none => cur ++ [item]

/-- The whole merge of one `complete` event's `analyst_signals` payload into
the current on-demand item list (the `for ... of Object.entries(...)` loop). -/
def mergeSignals (prev : List AnalysisDataItem)
    (payload : List (String × List (String × WireSignal))) :
    List AnalysisDataItem :=
  payload.foldl (fun cur p => upsertItem cur (mkItem p.1 p.2)) prev

/-! ## Run-level event processing (App.tsx, runWatchlistAnalysisHandler)

The SSE dispatch, at the level of already-parsed events: a `complete` event
with a truthy `data.analyst_signals` merges; an `error` event records the
message in `analysisError` and stops consumption (`reader.cancel()` followed
by `break`); `start`/`progress` only log. -/

/-- A parsed run event as dispatched by the watchlist handler. -/
inductive RunEvent where
  | startEv : RunEvent
  | progressEv : RunEvent
  | completeEv : Option (List (String × List (String × WireSignal))) → RunEvent
  | errorEv : Option String → RunEvent
deriving DecidableEq

/-- State of the watchlist run: current on-demand dataset, the
`analysisError` state, and whether the reader was cancelled. -/
structure RunState where
  dataset : List AnalysisDataItem
  analysisError : Option String
  stopped : Bool
deriving DecidableEq

/-- `eventData.message || "An error occurred during analysis."` -/
def defaultErrMsg : String := "An error occurred during analysis."

/-- JavaScript `m.message || default` (absent or empty message is falsy). -/
def errMsgOf (m : Option String) : String :=
  match m with
  | some s => if s = "" then defaultErrMsg else s
  | none => defaultErrMsg

/-- One step of the watchlist handler's event dispatch. -/
def stepRun (st : RunState) (e : RunEvent) : RunState :=
  if st.stopped then st
  else
    match e with
    | .completeEv (some sigs) => { st with dataset := mergeSignals st.dataset sigs }
    | .completeEv none => st
    | .errorEv m =>
        { dataset := st.dataset, analysisError := some (errMsgOf m), stopped := true }
    | _ => st

/-- Processing a list of parsed events in arrival order. -/
def runEvents (st : RunState) (es : List RunEvent) : RunState :=
  es.foldl stepRun st

/-- The state at the start of a run (`analysisError` cleared, nothing merged). -/
def initRun : RunState := ⟨[], none, false⟩

/-! ## Progress derivation (AnalysisResults.tsx, getAnalysisProgress)

`agentNodeData` maps an agent key to its current `\x7bstatus, ticker\x7d`;
an agent that is COMPLETE contributes `tickers.length` tasks, an agent that is
IN_PROGRESS with a truthy ticker contributes `tickers.indexOf(ticker) + 1`
(zero when the ticker is not in the request list, since `indexOf` yields -1).
The result is `Math.min(100, Math.round(completed / total * 100))`; the
JavaScript float arithmetic is embedded as exact rational rounding
(round half up), and the division-by-zero `NaN` as `none`. -/

/-- Node lifecycle status. -/
inductive NodeStatus where
  | IDLE : NodeStatus
  | IN_PROGRESS : NodeStatus
  | COMPLETE : NodeStatus
  | ERROR : NodeStatus
deriving DecidableEq

/-- Per-agent node data read by the progress computation. -/
structure AgentData where
  status : NodeStatus
  ticker : Option String
deriving DecidableEq

/-- `Math.round(n / d)` for naturals, rounding half up. -/
def roundDiv (n d : Nat) : Nat := (2 * n + d) / (2 * d)

/-- The per-agent contribution to `completedTasks` in `getAnalysisProgress`. -/
def contribJS (tickers : List String) (d : Option AgentData) : Nat :=
  match d with
  | none => 0
  | some a =>
    match a.status with
    | .COMPLETE => tickers.length
    | .IN_PROGRESS =>
      match a.ticker with
      | some t => if t ≠ "" then (if t ∈ tickers then tickers.indexOf t + 1 else 0) else 0
      | none => 0
    | _ => 0

/-- `getAnalysisProgress` from AnalysisResults.tsx.  `none` models the `NaN`
produced when `tickers` is empty while agents are selected. -/
def getAnalysisProgress (selectedAgents : List String) (tickers : List String)
    (store : String → Option AgentData) : Option Nat :=
  if selectedAgents = [] then some 0
  else
    let totalTasks := selectedAgents.length * tickers.length
    let completedTasks :=
      selectedAgents.foldl (fun acc k => acc + contribJS tickers (store k)) 0
    if totalTasks = 0 then none
    else some (min 100 (roundDiv (100 * completedTasks) totalTasks))

/-- Modelled from the spec: the per-agent node update applied on each
ProgressEvent.  The updater itself (the node-context module) is not part of
the sources; §4.2 of the spec says an IN_PROGRESS frame stores the event's
ticker and status on the cell, which for the per-agent store read by
`getAnalysisProgress` means overwriting that agent's `\x7bstatus, ticker\x7d`
with the frame's values. -/
def applyProgress (store : String → Option AgentData)
    (agent : String) (ticker : Option String) (status : NodeStatus) :
    String → Option AgentData :=
  fun k => if k = agent then some ⟨status, ticker⟩ else store k

/-- The empty agent store at request time. -/
def emptyStore : String → Option AgentData := fun _ => none

/-! ## Most prominent signal (MonitorView, getProminentSignalForTicker)

Walks every style entry's items for the given ticker; a truthy primary
`signal`/`confidence` pair or a truthy agent-signal `confidence` strictly
greater than the best seen so far replaces it.  JavaScript truthiness: the
number 0 and the empty string are falsy. -/

/-- Truthiness of an optional string (empty string is falsy). -/
def truthyStr : Option String → Bool
  | some s => s ≠ ""
  | none => false

/-- One step of the agent-signal loop in `getProminentSignalForTicker`:
`if (agentSignal.confidence && agentSignal.confidence > highestConfidence)`
(the number 0 is falsy). -/
def agentStep (st2 : Option String × ℚ) (a : AgentSignalDetail) :
    Option String × ℚ :=
  match a.confidence with
  | some c => if c ≠ 0 ∧ c > st2.2 then (a.signal, c) else st2
  | none => st2

/-- The fold over one item of a style entry's data, from
`getProminentSignalForTicker`.  State: `(bestSignal, highestConfidence)`. -/
def scanItem (ticker : String) (st : Option String × ℚ) (item : AnalysisDataItem) :
    Option String × ℚ :=
  if item.ticker = ticker then
    let st1 :=
      match item.signal, item.confidence with
      | some s, some c => if s ≠ "" ∧ c ≠ 0 ∧ c > st.2 then (some s, c) else st
      | _, _ => st
    item.agent_signals.foldl agentStep st1
  else st

/-- `getProminentSignalForTicker` from MonitorView.  The entries are the
values of `allAnalysisData` (`styleEntry.data`, skipped when absent);
`highestConfidence` starts at -1 and -1 at the end is reported as `null`. -/
def getProminentSignalForTicker (ticker : String)
    (entries : List (Option (List AnalysisDataItem))) : Option String × Option ℚ :=
  let st :=
    entries.foldl
      (fun st e =>
        match e with
        | some items => items.foldl (scanItem ticker) st
        | none => st)
      (none, (-1 : ℚ))
  (st.1, if st.2 = -1 then none else some st.2)

/-! ## Stream parsing (SimpleRunForm.tsx, handleSubmit SSE loop)

The loop accumulates decoded chunks in `buffer`, repeatedly splits off the
text before the first `"\n\n"`, and processes each such message: only
messages starting with `"data: "` are considered; the rest of the message is
passed to `JSON.parse`, the parsed object's `event_type` is matched against
the long-form names, and the object's `data` is dispatched.  A JSON parse
failure logs and sets the error state to a fixed parse-failure message.

`JSON.parse`/`JSON.stringify` are platform builtins; they are modelled here
as a concrete codec for the event envelope
`\x7b"event_type": "<name>", "data": <payload>\x7d` (with `<payload>` kept as
its raw serialized text); any string not of this shape is conservatively a
parse failure, which coincides with `JSON.parse` on the inputs exercised by
the claims (well-formed envelopes and non-JSON text). -/

/-- The left brace character (0x7b). -/
def lbrace : Char := Char.ofNat 123

/-- The right brace character (0x7d). -/
def rbrace : Char := Char.ofNat 125

/-- Event frame type, with the long-form names used by SimpleRunForm's
matcher. -/
inductive EvType where
  | startE : EvType
  | progressE : EvType
  | completeE : EvType
  | errorE : EvType
deriving DecidableEq

/-- The long-form wire name of an event type. -/
def typeName : EvType → JStr
  | .startE => "StartEvent".toList
  | .progressE => "ProgressUpdateEvent".toList
  | .completeE => "CompleteEvent".toList
  | .errorE => "ErrorEvent".toList

/-- One event frame: a type and the raw serialized text of its `data`
payload. -/
structure Frame where
  etype : EvType
  payload : JStr
deriving DecidableEq

/-- `stripPre p s`: `some r` when `s = p ++ r` (models `startsWith` plus
`substring`). -/
def stripPre : JStr → JStr → Option JStr
  | [], s => some s
  | _ :: _, [] => none
  | p :: ps, c :: cs => if c = p then stripPre ps cs else none

/-- The fixed text before the type name in the envelope. -/
def envHead : JStr := ("\x7b\"event_type\": \"").toList

/-- The fixed text between the type name and the payload in the envelope. -/
def envMid : JStr := ("\", \"data\": ").toList

/-- The `"data: "` line marker. -/
def dataMark : JStr := "data: ".toList

/-- Serialize the envelope of a frame. -/
def envelope (f : Frame) : JStr :=
  envHead ++ typeName f.etype ++ envMid ++ f.payload ++ [rbrace]

/-- Model of `JSON.parse` restricted to the event envelope: returns the
`event_type` string and the raw `data` payload text. -/
def decodeEnvelope (s : JStr) : Option (JStr × JStr) :=
  match stripPre envHead s with
  | none => none
  | some r =>
    let name := r.takeWhile (fun c => c ≠ '"')
    match stripPre envMid (r.drop name.length) with
    | none => none
    | some r2 =>
      match r2.getLast? with
      | some c => if c = rbrace then some (name, r2.dropLast) else none
      | none => none

/-- The long-name matcher of SimpleRunForm's dispatch chain. -/
def matchType (n : JStr) : Option EvType :=
  if n = typeName .startE then some .startE
  else if n = typeName .progressE then some .progressE
  else if n = typeName .completeE then some .completeE
  else if n = typeName .errorE then some .errorE
  else none

/-- The error recorded on a JSON parse failure:
`'Failed to parse event from server.'`. -/
def parseFailMsg : JStr := "Failed to parse event from server.".toList

/-- The component state mutated by the SSE loop.  `trace` is the ordered
sequence of frames the parser recognized and dispatched (the parser's output
stream); `progressMessages`, `finalResult` and `error` model the
corresponding React state. -/
structure SState where
  buffer : JStr
  trace : List Frame
  progressMessages : List Frame
  finalResult : Option JStr
  error : Option JStr
deriving DecidableEq

/-- Process one complete message (the text before a `"\n\n"`). -/
def processMessage (st : SState) (m : JStr) : SState :=
  match stripPre dataMark m with
  | none => st
  | some jsonData =>
    match decodeEnvelope jsonData with
    | none => { st with error := some parseFailMsg }
    | some (n, payload) =>
      match matchType n with
      | some .startE =>
        { st with trace := st.trace ++ [⟨.startE, payload⟩],
                  progressMessages := st.progressMessages ++ [⟨.startE, payload⟩] }
      | some .progressE =>
        { st with trace := st.trace ++ [⟨.progressE, payload⟩],
                  progressMessages := st.progressMessages ++ [⟨.progressE, payload⟩] }
      | some .completeE =>
        { st with trace := st.trace ++ [⟨.completeE, payload⟩],
                  finalResult := some payload }
      | some .errorE =>
        { st with trace := st.trace ++ [⟨.errorE, payload⟩],
                  error := some payload }
      | none => st

/-- Split a buffer at the first occurrence of `"\n\n"` (JavaScript
`buffer.indexOf('\n\n')` plus the two slices). -/
def splitSep : JStr → Option (JStr × JStr)
  | [] => none
  | [_] => none
  | a :: b :: r =>
    if a = '\n' ∧ b = '\n' then some ([], r)
    else (splitSep (b :: r)).map (fun p => (a :: p.1, p.2))

/-- Fuelled message-draining loop (the inner
`while ((EOL_index = buffer.indexOf('\n\n')) !== -1)`); the fuel is an upper
bound on the buffer length, which strictly decreases at each iteration. -/
def drainFuel : Nat → SState → SState
  | 0, st => st
  | n + 1, st =>
    match splitSep st.buffer with
    | none => st
    | some (m, r) => drainFuel n { processMessage st m with buffer := r }

/-- Drain all complete messages from the buffer. -/
def drainAll (st : SState) : SState := drainFuel st.buffer.length st

/-- Receive one decoded chunk: append to the buffer, then drain. -/
def feedChunk (st : SState) (chunk : JStr) : SState :=
  drainAll { st with buffer := st.buffer ++ chunk }

/-- Receive a list of chunks in order. -/
def feedAll (st : SState) (chunks : List JStr) : SState :=
  chunks.foldl feedChunk st

/-- The state when the stream is opened. -/
def initS : SState := ⟨[], [], [], none, none⟩

/-- Encode one frame in the wire format this parser actually consumes:
a `data: ` line carrying the envelope, terminated by a blank line. -/
def encodeFrame (f : Frame) : JStr :=
  dataMark ++ envelope f ++ ['\n', '\n']

/-- Encode a frame sequence. -/
def encodeFrames (fs : List Frame) : JStr := (fs.map encodeFrame).flatten

/-- The wire format named by the claim (and by §6 of the spec):
`event: <type>` on one line, `data: <json>` on the next, a blank line after
— written from the spec's words, for comparison with what the parsers
consume. -/
def specWireFrame (name : JStr) (json : JStr) : JStr :=
  "event: ".toList ++ name ++ ['\n'] ++ dataMark ++ json ++ ['\n', '\n']

/-! ### The watchlist handler's line scanner (App.tsx)

App.tsx's `runWatchlistAnalysisHandler` splits its buffer with
`buffer.split('\\n')` — the two-character sequence backslash `n`, not a
newline — keeps the last element as the new buffer, and for each line
starting with `event: ` takes the line after the FIRST occurrence of that
line (`lines.indexOf(line) + 1`) as its `data: ` line.  Only the recognized
`(eventType, dataText)` pairs are modelled here. -/

/-- Split at every occurrence of a two-character separator (JavaScript
`split` with a two-character string). -/
def splitSeq2 (x y : Char) : JStr → List JStr
  | [] => [[]]
  | [c] => [[c]]
  | a :: b :: r =>
    if a = x ∧ b = y then [] :: splitSeq2 x y r
    else
      match splitSeq2 x y (b :: r) with
      | [] => [[a]]
      | h :: t => (a :: h) :: t

/-- The pairs `(eventType, dataText)` recognized by one pass of App.tsx's
`for (const line of lines)` loop over the split lines (the popped last
element is the retained partial buffer and is not scanned). -/
def appScanLines (lines : List JStr) : List (JStr × JStr) :=
  lines.foldl
    (fun acc line =>
      match stripPre "event: ".toList line with
      | none => acc
      | some etype =>
        let dataLineIndex := lines.indexOf line + 1
        match lines.get? dataLineIndex with
        | none => acc
        | some dl =>
          match stripPre dataMark dl with
          | none => acc
          | some dataText => acc ++ [(etype, dataText)])
    []

/-- One chunk arrival of App.tsx's scanner: append the chunk, split on the
literal backslash-n pairs, retain the last piece as the buffer, scan the
rest.  Returns the recognized pairs and the new buffer. -/
def appFeedChunk (buffer chunk : JStr) : List (JStr × JStr) × JStr :=
  let pieces := splitSeq2 '\\' 'n' (buffer ++ chunk)
  match pieces.getLast? with
  | none => ([], [])
  | some lastPiece => (appScanLines (pieces.dropLast), lastPiece)

/-! ## C10: watchlist add/remove -/

/-- C10: the add operation returns true exactly when the trimmed, uppercased
input is non-empty and not already present, in which case that ticker is
appended and the input cleared; otherwise it returns false and leaves the
watchlist and input unchanged; remove deletes every occurrence of the given
ticker keeping the other entries in order; both operations preserve
freedom from duplicates, and the initial watchlist has none. -/
theorem watchlist_ops_spec (w : List JStr) (input t : JStr) :
    ((addToWatchlist w input).1 = true ↔
      (jsToUpper (jsTrim input) ≠ [] ∧ jsToUpper (jsTrim input) ∉ w)) ∧
    ((addToWatchlist w input).1 = true →
      (addToWatchlist w input).2.1 = w ++ [jsToUpper (jsTrim input)] ∧
      (addToWatchlist w input).2.2 = []) ∧
    ((addToWatchlist w input).1 = false →
      (addToWatchlist w input).2.1 = w ∧ (addToWatchlist w input).2.2 = input) ∧
    (∀ x, x ∈ removeFromWatchlist w t ↔ x ∈ w ∧ x ≠ t) ∧
    (removeFromWatchlist w t).Sublist w ∧
    (w.Nodup → (addToWatchlist w input).2.1.Nodup ∧
      (removeFromWatchlist w t).Nodup) ∧
    initialWatchlist.Nodup := by
  have hrm : ∀ x, x ∈ removeFromWatchlist w t ↔ x ∈ w ∧ x ≠ t := by
    intro x
    simp [removeFromWatchlist]
  by_cases h : jsToUpper (jsTrim input) ≠ [] ∧ jsToUpper (jsTrim input) ∉ w
  · refine ⟨by simp [addToWatchlist, h], ?_, ?_, hrm, List.filter_sublist w, ?_, by decide⟩
    · intro _
      constructor <;> simp [addToWatchlist, h]
    · intro hfalse
      exfalso
      simp [addToWatchlist, h] at hfalse
    · intro hw
      refine ⟨?_, List.Nodup.filter _ hw⟩
      have : (addToWatchlist w input).2.1 = w ++ [jsToUpper (jsTrim input)] := by
        simp [addToWatchlist, h]
      rw [this]
      simp [List.nodup_append, hw, h.2]
  · refine ⟨by simp [addToWatchlist, h], ?_, ?_, hrm, List.filter_sublist w, ?_, by decide⟩
    · intro htrue
      exfalso
      simp [addToWatchlist, h] at htrue
    · intro _
      constructor <;> simp [addToWatchlist, h]
    · intro hw
      have : (addToWatchlist w input).2.1 = w := by simp [addToWatchlist, h]
      rw [this]
      exact ⟨hw, List.Nodup.filter _ hw⟩

/-- Witness for C10 at a concrete input: adding " msft " to the initial
watchlist succeeds. -/
theorem watchlist_ops_spec_witness :
    (addToWatchlist initialWatchlist " msft ".toList).1 = true :=
  (watchlist_ops_spec initialWatchlist " msft ".toList []).1.mpr (by decide)

/-! ## C9: tickers of the outgoing run request -/

/-- C9 counterexample: the claim says the outgoing tickers list never contains
duplicates, but the input "AAPL,AAPL" passes validation and is sent with the
ticker twice; moreover the SimpleRunForm request body does not uppercase
("aapl" is sent as typed). -/
theorem request_tickers_cex :
    tickersValid "AAPL,AAPL".toList = true ∧
    validTickers "AAPL,AAPL".toList = ["AAPL".toList, "AAPL".toList] ∧
    ¬ (validTickers "AAPL,AAPL".toList).Nodup ∧
    requestTickersSimple "aapl".toList = ["aapl".toList] := by
  decide

/-- C9 (amended): when validation passes, the tickers list sent by the
analysis form is non-empty and each entry is some comma-separated field of
the input trimmed and converted to upper case — but duplicates are kept. -/
theorem request_tickers_amended (input : JStr) (h : tickersValid input = true) :
    validTickers input ≠ [] ∧
    ∀ t ∈ validTickers input, ∃ raw ∈ splitComma input, t = jsToUpper (jsTrim raw) := by
  constructor
  · simp only [tickersValid, Bool.and_eq_true, decide_eq_true_eq] at h
    exact h.2
  · intro t ht
    simp only [validTickers, List.mem_map] at ht
    obtain ⟨t0, ht0, hup⟩ := ht
    have ht1 : t0 ∈ tickerListOf input := List.mem_of_mem_filter ht0
    simp only [tickerListOf, List.mem_filter, List.mem_map] at ht1
    obtain ⟨⟨raw, hraw, htrim⟩, _⟩ := ht1
    exact ⟨raw, hraw, by rw [← hup, ← htrim]⟩

/-- Witness for C9 (amended) at the concrete input "aapl, msft". -/
theorem request_tickers_amended_witness :
    validTickers "aapl, msft".toList ≠ [] ∧
    ∀ t ∈ validTickers "aapl, msft".toList,
      ∃ raw ∈ splitComma "aapl, msft".toList, t = jsToUpper (jsTrim raw) :=
  request_tickers_amended "aapl, msft".toList (by decide)

/-! ## C1: shape of merged `complete` payloads -/

/-- The `analyst_signals` payload of the spec's Scenario B, read with the
shape the spec declares (outer key = agent, inner key = ticker). -/
def scenarioBPayload : List (String × List (String × WireSignal)) :=
  [("warren_buffett_agent", [("AAPL", ⟨some "bullish", some 80, none⟩)])]

/-- C1 counterexample: merging the Scenario B payload produces an entry
keyed by the OUTER key "warren_buffett_agent" whose agent_name is the inner
key "AAPL" — no entry keyed by the ticker "AAPL" exists, contrary to the
claim. -/
theorem merge_scenarioB_cex :
    mergeSignals [] scenarioBPayload =
      [⟨"warren_buffett_agent", none, none,
        [⟨"AAPL", some "bullish", some 80, none⟩]⟩] ∧
    ∀ item ∈ mergeSignals [] scenarioBPayload, item.ticker ≠ "AAPL" := by
  decide

/-- Auxiliary: merging a payload whose outer keys are fresh and distinct
appends one transformed item per outer entry. -/
theorem mergeSignals_fresh (payload : List (String × List (String × WireSignal)))
    (cur : List AnalysisDataItem)
    (hfresh : ∀ p ∈ payload, ∀ e ∈ cur, e.ticker ≠ p.1)
    (hnd : (payload.map Prod.fst).Nodup) :
    mergeSignals cur payload = cur ++ payload.map (fun p => mkItem p.1 p.2) := by
  induction payload generalizing cur with
  | nil => simp [mergeSignals]
  | cons p rest ih =>
    have hnone : cur.findIdx? (fun e => e.ticker = (mkItem p.1 p.2).ticker) = none := by
      rw [List.findIdx?_eq_none_iff]
      intro e he
      simpa [mkItem] using hfresh p (by simp) e he
    have hstep : upsertItem cur (mkItem p.1 p.2) = cur ++ [mkItem p.1 p.2] := by
      simp [upsertItem, hnone]
    have hnd1 : (p.1 :: rest.map Prod.fst).Nodup := by simpa using hnd
    have hmem : p.1 ∉ rest.map Prod.fst := (List.nodup_cons.mp hnd1).1
    have hfresh2 : ∀ q ∈ rest, ∀ e ∈ cur ++ [mkItem p.1 p.2], e.ticker ≠ q.1 := by
      intro q hq e he
      rcases List.mem_append.mp he with h1 | h1
      · exact hfresh q (by simp [hq]) e h1
      · have : e = mkItem p.1 p.2 := by simpa using h1
        subst this
        simp only [mkItem]
        intro hcontra
        exact hmem (by simpa [hcontra] using List.mem_map_of_mem Prod.fst hq)
    have hnd2 : (rest.map Prod.fst).Nodup := (List.nodup_cons.mp hnd1).2
    calc mergeSignals cur (p :: rest)
        = mergeSignals (cur ++ [mkItem p.1 p.2]) rest := by
          simp [mergeSignals, hstep]
      _ = (cur ++ [mkItem p.1 p.2]) ++ rest.map (fun q => mkItem q.1 q.2) :=
          ih _ hfresh2 hnd2
      _ = cur ++ (p :: rest).map (fun q => mkItem q.1 q.2) := by simp

/-- C1 (amended): the merge treats the OUTER keys of `analyst_signals` as
tickers and the INNER keys as agent names: for any payload with distinct
outer keys, merging into an empty on-demand list produces, per outer entry
`(k, sigs)`, one dataset entry with `ticker = k` and
`agent_signals = [⟨innerKey, signal, confidence, reasoning⟩, …]`
(`signal`/`confidence` of the entry itself set to null).  On the Scenario B
payload this yields the entry keyed "warren_buffett_agent", not "AAPL". -/
theorem merge_outer_key_is_ticker
    (payload : List (String × List (String × WireSignal)))
    (hnd : (payload.map Prod.fst).Nodup) :
    mergeSignals [] payload = payload.map (fun p => mkItem p.1 p.2) := by
  simpa using mergeSignals_fresh payload [] (by simp) hnd

/-- Witness for C1 (amended) on a two-ticker payload. -/
theorem merge_outer_key_is_ticker_witness :
    mergeSignals []
      [("MSFT", [("fundamentals_analyst_agent", ⟨some "Buy", some 85, none⟩)]),
       ("GOOG", [("technicals_agent", ⟨some "Hold", some 60, none⟩)])] =
      [⟨"MSFT", none, none,
        [⟨"fundamentals_analyst_agent", some "Buy", some 85, none⟩]⟩,
       ⟨"GOOG", none, none,
        [⟨"technicals_agent", some "Hold", some 60, none⟩]⟩] := by
  rw [merge_outer_key_is_ticker _ (by decide)]
  decide

/-! ## C6: idempotent replacement per (source key, ticker) -/

/-- Upserting past an entry with a different ticker leaves it in place. -/
theorem upsert_cons_ne (c : AnalysisDataItem) (rest : List AnalysisDataItem)
    (item : AnalysisDataItem) (h : c.ticker ≠ item.ticker) :
    upsertItem (c :: rest) item = c :: upsertItem rest item := by
  unfold upsertItem
  rw [List.findIdx?_cons]
  simp only [h, decide_eq_true_eq, if_false]
  cases hf : rest.findIdx? (fun e => e.ticker = item.ticker) with
  | none => simp [hf]
  | some i => simp [hf]

/-- Upserting onto an entry with the same ticker replaces it in place. -/
theorem upsert_cons_eq (c : AnalysisDataItem) (rest : List AnalysisDataItem)
    (item : AnalysisDataItem) (h : c.ticker = item.ticker) :
    upsertItem (c :: rest) item = item :: rest := by
  unfold upsertItem
  rw [List.findIdx?_cons]
  simp [h]

/-- Every ticker after an upsert was already present or is the new item's. -/
theorem mem_tickers_upsert (cur : List AnalysisDataItem) (item : AnalysisDataItem)
    (x : String) (hx : x ∈ (upsertItem cur item).map AnalysisDataItem.ticker) :
    x ∈ cur.map AnalysisDataItem.ticker ∨ x = item.ticker := by
  induction cur with
  | nil =>
    simp [upsertItem] at hx
    exact Or.inr hx
  | cons c rest ih =>
    by_cases h : c.ticker = item.ticker
    · rw [upsert_cons_eq c rest item h] at hx
      simp only [List.map_cons, List.mem_cons] at hx ⊢
      rcases hx with h1 | h1
      · exact Or.inr h1
      · exact Or.inl (Or.inr h1)
    · rw [upsert_cons_ne c rest item h] at hx
      simp only [List.map_cons, List.mem_cons] at hx ⊢
      rcases hx with h1 | h1
      · exact Or.inl (Or.inl h1)
      · rcases ih h1 with h2 | h2
        · exact Or.inl (Or.inr h2)
        · exact Or.inr h2

/-- The three invariants of one replace-or-push step, under the dataset
invariant (at most one entry per ticker): afterwards there is exactly one
entry carrying the item's ticker and it is the item itself, entries with
other tickers are untouched, and the invariant is preserved. -/
theorem upsert_props (cur : List AnalysisDataItem) (item : AnalysisDataItem)
    (hd : (cur.map AnalysisDataItem.ticker).Nodup) :
    (upsertItem cur item).filter (fun e => e.ticker = item.ticker) = [item] ∧
    (upsertItem cur item).filter (fun e => e.ticker ≠ item.ticker) =
      cur.filter (fun e => e.ticker ≠ item.ticker) ∧
    ((upsertItem cur item).map AnalysisDataItem.ticker).Nodup := by
  induction cur with
  | nil =>
    refine ⟨?_, ?_, ?_⟩ <;> simp [upsertItem]
  | cons c rest ih =>
    have hd1 : c.ticker ∉ rest.map AnalysisDataItem.ticker :=
      (List.nodup_cons.mp (by simpa using hd)).1
    have hd2 : (rest.map AnalysisDataItem.ticker).Nodup :=
      (List.nodup_cons.mp (by simpa using hd)).2
    by_cases h : c.ticker = item.ticker
    · rw [upsert_cons_eq c rest item h]
      have hrest : ∀ e ∈ rest, e.ticker ≠ item.ticker := by
        intro e he hcontra
        exact hd1 (by rw [h, ← hcontra]; exact List.mem_map_of_mem _ he)
      refine ⟨?_, ?_, ?_⟩
      · rw [List.filter_cons_of_pos (by simp)]
        rw [List.filter_eq_nil_iff.mpr (by intro e he; simpa using hrest e he)]
      · rw [List.filter_cons_of_neg (by simp), List.filter_cons_of_neg (by simp [h])]
      · simpa [← h] using hd
    · rw [upsert_cons_ne c rest item h]
      obtain ⟨ih1, ih2, ih3⟩ := ih hd2
      refine ⟨?_, ?_, ?_⟩
      · rw [List.filter_cons_of_neg (by simp [h]), ih1]
      · rw [List.filter_cons_of_pos (by simp [h]), List.filter_cons_of_pos (by simp [h]), ih2]
      · rw [List.map_cons, List.nodup_cons]
        refine ⟨?_, ih3⟩
        intro hc
        rcases mem_tickers_upsert rest item c.ticker hc with h1 | h1
        · exact hd1 h1
        · exact h h1

/-- C6: after any non-empty sequence of `complete`-event merges that all
target the same ticker under the same source key, the dataset holds exactly
one entry for that ticker (replacement, never duplication), its content is
the transformed content of the LAST merge, entries for other tickers are
unchanged (content and order), and the one-entry-per-ticker invariant is
preserved. -/
theorem merge_same_ticker_replaces (d : List AnalysisDataItem) (T : String)
    (ss : List (List (String × WireSignal))) (sN : List (String × WireSignal))
    (hd : (d.map AnalysisDataItem.ticker).Nodup)
    (hlast : ss.getLast? = some sN) :
    (ss.foldl (fun cur s => mergeSignals cur [(T, s)]) d).filter
      (fun e => e.ticker = T) = [mkItem T sN] ∧
    (ss.foldl (fun cur s => mergeSignals cur [(T, s)]) d).filter
      (fun e => e.ticker ≠ T) = d.filter (fun e => e.ticker ≠ T) ∧
    ((ss.foldl (fun cur s => mergeSignals cur [(T, s)]) d).map
      AnalysisDataItem.ticker).Nodup := by
  induction ss generalizing d with
  | nil => simp at hlast
  | cons s rest ih =>
    have hone : mergeSignals d [(T, s)] = upsertItem d (mkItem T s) := by
      simp [mergeSignals]
    have hticker : (mkItem T s).ticker = T := rfl
    obtain ⟨h1, h2, h3⟩ := upsert_props d (mkItem T s) hd
    rw [hticker] at h1 h2
    cases hrest : rest with
    | nil =>
      subst hrest
      have hsN : sN = s := by simpa using hlast.symm
      subst hsN
      refine ⟨?_, ?_, ?_⟩ <;>
        simp only [List.foldl_cons, List.foldl_nil, hone] <;>
        first
          | exact h1
          | exact h2
          | exact h3
    | cons r2 rest2 =>
      have hlast2 : rest.getLast? = some sN := by
        rw [hrest]
        rw [hrest] at hlast
        simpa [List.getLast?_cons_cons] using hlast
      rw [← hrest]
      have hfold : (s :: rest).foldl (fun cur s => mergeSignals cur [(T, s)]) d =
          rest.foldl (fun cur s => mergeSignals cur [(T, s)]) (upsertItem d (mkItem T s)) := by
        simp [hone]
      obtain ⟨g1, g2, g3⟩ := ih (upsertItem d (mkItem T s)) h3 hlast2
      refine ⟨by rw [hfold]; exact g1, ?_, by rw [hfold]; exact g3⟩
      rw [hfold, g2, h2]

/-- Witness for C6: two successive merges for ticker "AAPL" on a dataset
already holding "MSFT" leave one "AAPL" entry with the second merge's
content and the "MSFT" entry untouched. -/
theorem merge_same_ticker_replaces_witness :
    (([[("a1", ⟨some "bullish", some 80, none⟩)],
       [("a2", ⟨some "bearish", some 40, none⟩)]] :
        List (List (String × WireSignal))).foldl
      (fun cur s => mergeSignals cur [("AAPL", s)])
      [⟨"MSFT", none, none, []⟩]).filter
      (fun e => e.ticker = "AAPL") =
      [mkItem "AAPL" [("a2", ⟨some "bearish", some 40, none⟩)]] :=
  (merge_same_ticker_replaces [⟨"MSFT", none, none, []⟩] "AAPL"
    [[("a1", ⟨some "bullish", some 80, none⟩)],
     [("a2", ⟨some "bearish", some 40, none⟩)]]
    [("a2", ⟨some "bearish", some 40, none⟩)]
    (by decide) (by decide)).1

/-! ## C4: the derived progress percentage -/

/-- Folding the running `completedTasks` accumulation into a mapped sum. -/
theorem foldl_add_map {α : Type} (l : List α) (f : α → Nat) (n : Nat) :
    l.foldl (fun acc k => acc + f k) n = n + (l.map f).sum := by
  induction l generalizing n with
  | nil => simp
  | cons x xs ih => simp [ih, Nat.add_assoc]

/-- The claim's completed-cell count, written from the claim's words with the
strict reading: an IN_PROGRESS agent on the ticker at request-list position
`i` contributes exactly the tickers at positions strictly less than `i`. -/
def claimCellsStrict (tickers : List String) (d : Option AgentData) : Nat :=
  match d with
  | none => 0
  | some a =>
    match a.status with
    | .COMPLETE => tickers.length
    | .IN_PROGRESS =>
      match a.ticker with
      | some t => tickers.indexOf t
      | none => 0
    | _ => 0

/-- The claim's percentage formula
`round(100 * completed_cells / (agents × tickers))` under the strict
reading. -/
def claimProgressStrict (agents tickers : List String)
    (store : String → Option AgentData) : Nat :=
  roundDiv (100 * (agents.map (fun k => claimCellsStrict tickers (store k))).sum)
    (agents.length * tickers.length)

/-- The completed-cell count as amended: an IN_PROGRESS agent on the ticker
at position `i` contributes the tickers at positions up to and including `i`
(the code adds `tickers.indexOf(ticker) + 1`). -/
def claimCellsLe (tickers : List String) (d : Option AgentData) : Nat :=
  match d with
  | none => 0
  | some a =>
    match a.status with
    | .COMPLETE => tickers.length
    | .IN_PROGRESS =>
      match a.ticker with
      | some t => tickers.indexOf t + 1
      | none => 0
    | _ => 0

/-- C4 counterexample: one agent, one requested ticker, the agent
IN_PROGRESS on that ticker (request-list position 0).  The code reports
100%, the claim's formula (strictly-earlier tickers only) gives 0%. -/
theorem progress_formula_cex :
    getAnalysisProgress ["agent1"] ["AAPL"]
      (applyProgress emptyStore "agent1" (some "AAPL") .IN_PROGRESS) = some 100 ∧
    claimProgressStrict ["agent1"] ["AAPL"]
      (applyProgress emptyStore "agent1" (some "AAPL") .IN_PROGRESS) = 0 ∧
    (100 : Nat) ≠ 0 := by
  decide

/-- Each agent's contribution is bounded by the ticker count. -/
theorem claimCellsLe_le (tickers : List String) (d : Option AgentData)
    (h : ∀ a, d = some a → a.status = .IN_PROGRESS →
      ∀ t, a.ticker = some t → t ∈ tickers) :
    claimCellsLe tickers d ≤ tickers.length := by
  match d with
  | none => simp [claimCellsLe]
  | some a =>
    match hs : a.status with
    | .COMPLETE => simp [claimCellsLe, hs]
    | .IDLE => simp [claimCellsLe, hs]
    | .ERROR => simp [claimCellsLe, hs]
    | .IN_PROGRESS =>
      match htk : a.ticker with
      | none => simp [claimCellsLe, hs, htk]
      | some t =>
        have hmem : t ∈ tickers := h a rfl hs t htk
        have : tickers.indexOf t < tickers.length := List.indexOf_lt_length.mpr hmem
        simp only [claimCellsLe, hs, htk]
        omega

/-- Rounding a completed/total ratio never exceeds 100%. -/
theorem roundDiv_ratio_le (c t : Nat) (hct : c ≤ t) (ht : 0 < t) :
    roundDiv (100 * c) t ≤ 100 := by
  unfold roundDiv
  have h1 : 2 * (100 * c) + t < 101 * (2 * t) := by omega
  have := (Nat.div_lt_iff_lt_mul (by omega : 0 < 2 * t)).mpr h1
  omega

/-- C4 (amended): for non-empty agent and ticker lists, when every
IN_PROGRESS agent is on a non-empty ticker from the request list, the code's
progress equals `round(100 * completed_cells / (agents × tickers))` where a
COMPLETE agent completes all cells and an IN_PROGRESS agent on the ticker at
request-list position `i` completes the cells at positions up to AND
INCLUDING `i` (the claim's strictly-less-than reading is off by one cell). -/
theorem progress_formula_amended (agents tickers : List String)
    (store : String → Option AgentData)
    (ha : agents ≠ []) (ht : tickers ≠ [])
    (H : ∀ k ∈ agents, ∀ a, store k = some a → a.status = .IN_PROGRESS →
      ∃ t, a.ticker = some t ∧ t ≠ "" ∧ t ∈ tickers) :
    getAnalysisProgress agents tickers store =
      some (roundDiv (100 * (agents.map (fun k => claimCellsLe tickers (store k))).sum)
        (agents.length * tickers.length)) := by
  have htot : agents.length * tickers.length ≠ 0 := by
    have h1 : 0 < agents.length := List.length_pos.mpr ha
    have h2 : 0 < tickers.length := List.length_pos.mpr ht
    positivity
  have hpt : ∀ k ∈ agents, contribJS tickers (store k) = claimCellsLe tickers (store k) := by
    intro k hk
    match hsk : store k with
    | none => simp [contribJS, claimCellsLe]
    | some a =>
      match hs : a.status with
      | .COMPLETE => simp [contribJS, claimCellsLe, hs]
      | .IDLE => simp [contribJS, claimCellsLe, hs]
      | .ERROR => simp [contribJS, claimCellsLe, hs]
      | .IN_PROGRESS =>
        obtain ⟨t, htk, hne, hmem⟩ := H k hk a hsk hs
        simp [contribJS, claimCellsLe, hs, htk, hne, hmem]
  have hmapeq : agents.map (fun k => contribJS tickers (store k)) =
      agents.map (fun k => claimCellsLe tickers (store k)) :=
    List.map_congr_left hpt
  have hsum_le : (agents.map (fun k => claimCellsLe tickers (store k))).sum ≤
      agents.length * tickers.length := by
    calc (agents.map (fun k => claimCellsLe tickers (store k))).sum
        ≤ (agents.map (fun k => claimCellsLe tickers (store k))).length * tickers.length := by
          apply List.sum_le_card_nsmul
          intro x hx
          obtain ⟨k, hk, hxk⟩ := List.mem_map.mp hx
          rw [← hxk]
          apply claimCellsLe_le
          intro a hsk hst t htk
          obtain ⟨t2, ht2, _, hmem⟩ := H k hk a hsk hst
          rw [htk] at ht2
          exact (Option.some.inj ht2) ▸ hmem
      _ = agents.length * tickers.length := by simp
  have hle := roundDiv_ratio_le _ _ hsum_le (Nat.pos_of_ne_zero htot)
  simp only [getAnalysisProgress, ha, htot, if_false]
  rw [foldl_add_map, Nat.zero_add, hmapeq, min_eq_right hle]

/-- Witness for C4 (amended): two agents, two tickers, one agent COMPLETE and
one IN_PROGRESS on the second ticker gives round(100·4/4) = 100... using a
partial state: agent2 IN_PROGRESS on "MSFT" (position 1) and agent1 COMPLETE
gives 100·(2+2)/4; take instead agent1 IDLE: round(100·2/4) = 50. -/
theorem progress_formula_amended_witness :
    getAnalysisProgress ["agent1", "agent2"] ["AAPL", "MSFT"]
      (applyProgress emptyStore "agent2" (some "MSFT") .IN_PROGRESS) =
      some (roundDiv
        (100 * ((["agent1", "agent2"].map (fun k => claimCellsLe ["AAPL", "MSFT"]
          ((applyProgress emptyStore "agent2" (some "MSFT") .IN_PROGRESS) k))).sum))
        (2 * 2)) :=
  progress_formula_amended ["agent1", "agent2"] ["AAPL", "MSFT"]
    (applyProgress emptyStore "agent2" (some "MSFT") .IN_PROGRESS)
    (by decide) (by decide)
    (by
      intro k hk a hsk hst
      simp only [List.mem_cons, List.not_mem_nil, or_false] at hk
      rcases hk with rfl | rfl
      · exfalso
        simp [applyProgress, emptyStore] at hsk
      · refine ⟨"MSFT", ?_, by decide, by decide⟩
        simp only [applyProgress, if_pos rfl] at hsk
        rw [← Option.some.inj hsk])

/-! ## C5: monotonicity of the derived percentage -/

/-- C5 counterexample: the percentage is NOT monotone under arbitrary
ProgressEvents.  One agent, one requested ticker: an IN_PROGRESS frame for
"AAPL" brings the percentage to 100; a following IN_PROGRESS frame whose
ticker field is null drops it back to 0. -/
theorem progress_monotone_cex :
    getAnalysisProgress ["agent1"] ["AAPL"]
      (applyProgress emptyStore "agent1" (some "AAPL") .IN_PROGRESS) = some 100 ∧
    getAnalysisProgress ["agent1"] ["AAPL"]
      (applyProgress (applyProgress emptyStore "agent1" (some "AAPL") .IN_PROGRESS)
        "agent1" none .IN_PROGRESS) = some 0 ∧
    ¬ (100 ≤ (0 : Nat)) := by
  decide

/-- C5 (amended): the derived percentage is monotonically non-decreasing
across a ProgressEvent provided the event does not lower its agent's implied
completed-cell count — in particular the event's ticker must not be null,
empty or outside the request list while the agent was contributing, and must
not sit at an earlier request-list position than the agent's current one. -/
theorem progress_monotone_amended (agents tickers : List String)
    (store : String → Option AgentData)
    (agent : String) (ticker : Option String) (status : NodeStatus) (p q : Nat)
    (hmono : contribJS tickers (store agent) ≤
      contribJS tickers (some ⟨status, ticker⟩))
    (hp : getAnalysisProgress agents tickers store = some p)
    (hq : getAnalysisProgress agents tickers
      (applyProgress store agent ticker status) = some q) :
    p ≤ q := by
  by_cases ha : agents = []
  · simp [getAnalysisProgress, ha] at hp hq
    omega
  · by_cases htot : agents.length * tickers.length = 0
    · simp [getAnalysisProgress, ha, htot] at hp hq
    · simp only [getAnalysisProgress, ha, htot, if_false, Option.some.injEq] at hp hq
      have hsum : (agents.map (fun k => contribJS tickers (store k))).sum ≤
          (agents.map (fun k =>
            contribJS tickers (applyProgress store agent ticker status k))).sum := by
        apply List.sum_le_sum
        intro k hk
        by_cases hks : k = agent
        · subst hks
          simpa [applyProgress] using hmono
        · simp [applyProgress, hks]
      rw [← hp, ← hq, foldl_add_map, foldl_add_map, Nat.zero_add, Nat.zero_add]
      have h1 : roundDiv (100 * (agents.map (fun k => contribJS tickers (store k))).sum)
          (agents.length * tickers.length) ≤
          roundDiv (100 * (agents.map (fun k =>
            contribJS tickers (applyProgress store agent ticker status k))).sum)
          (agents.length * tickers.length) := by
        unfold roundDiv
        exact Nat.div_le_div_right (by omega)
      exact min_le_min (le_refl 100) h1

/-- Witness for C5 (amended): moving the single agent from IN_PROGRESS on
"AAPL" (position 0) to IN_PROGRESS on "MSFT" (position 1) cannot decrease
the percentage. -/
theorem progress_monotone_amended_witness :
    (50 : Nat) ≤ 100 :=
  progress_monotone_amended ["agent1"] ["AAPL", "MSFT"]
    (applyProgress emptyStore "agent1" (some "AAPL") .IN_PROGRESS)
    "agent1" (some "MSFT") .IN_PROGRESS 50 100
    (by decide) (by decide) (by decide)

/-! ## C8: error events, partial results, and stopping -/

/-- After the reader is cancelled, no further event changes the state. -/
theorem runEvents_stopped (st : RunState) (es : List RunEvent)
    (h : st.stopped = true) : runEvents st es = st := by
  induction es with
  | nil => rfl
  | cons e rest ih =>
    have : stepRun st e = st := by simp [stepRun, h]
    simp [runEvents, this]
    simpa [runEvents] using ih

set_option maxRecDepth 8192 in
/-- C8 counterexample: the claim also covers the SimpleRunForm handler, but
that handler does NOT stop consuming on an ErrorEvent.  In a run where a
CompleteEvent has already been processed (payload "1" merged into
`finalResult`), a subsequent ErrorEvent records the error — yet a further
CompleteEvent arriving after the error is STILL consumed: the final trace
contains all three frames and `finalResult` holds the post-error payload
"3", so consumption of further frames was not stopped. -/
theorem error_event_stops_cex :
    (feedAll initS [encodeFrame ⟨.completeE, "1".toList⟩ ++
        encodeFrame ⟨.errorE, "2".toList⟩ ++
        encodeFrame ⟨.completeE, "3".toList⟩]).error = some "2".toList ∧
    (feedAll initS [encodeFrame ⟨.completeE, "1".toList⟩ ++
        encodeFrame ⟨.errorE, "2".toList⟩]).finalResult = some "1".toList ∧
    (feedAll initS [encodeFrame ⟨.completeE, "1".toList⟩ ++
        encodeFrame ⟨.errorE, "2".toList⟩ ++
        encodeFrame ⟨.completeE, "3".toList⟩]).finalResult = some "3".toList ∧
    (feedAll initS [encodeFrame ⟨.completeE, "1".toList⟩ ++
        encodeFrame ⟨.errorE, "2".toList⟩ ++
        encodeFrame ⟨.completeE, "3".toList⟩]).trace =
      [⟨.completeE, "1".toList⟩, ⟨.errorE, "2".toList⟩,
       ⟨.completeE, "3".toList⟩] := by
  decide

/-- C8 (amended): in the watchlist handler, an `error` event arriving while
the run is still consuming sets the run's error state to the event's message
(or the default), stops consumption of every further frame, and leaves all
dataset entries merged from prior `complete` events untouched. -/
theorem error_event_stops_and_preserves (pre suf : List RunEvent) (m : Option String)
    (h : (runEvents initRun pre).stopped = false) :
    (runEvents initRun (pre ++ .errorEv m :: suf)).dataset =
      (runEvents initRun pre).dataset ∧
    (runEvents initRun (pre ++ .errorEv m :: suf)).analysisError =
      some (errMsgOf m) ∧
    runEvents initRun (pre ++ .errorEv m :: suf) =
      runEvents initRun (pre ++ [.errorEv m]) := by
  have hstep : stepRun (runEvents initRun pre) (.errorEv m) =
      ⟨(runEvents initRun pre).dataset, some (errMsgOf m), true⟩ := by
    simp [stepRun, h]
  have hsplit : ∀ s : List RunEvent,
      runEvents initRun (pre ++ .errorEv m :: s) =
        runEvents (stepRun (runEvents initRun pre) (.errorEv m)) s := by
    intro s
    simp [runEvents, List.foldl_append]
  rw [hsplit suf, hsplit [], hstep,
    runEvents_stopped ⟨(runEvents initRun pre).dataset, some (errMsgOf m), true⟩ suf rfl,
    runEvents_stopped ⟨(runEvents initRun pre).dataset, some (errMsgOf m), true⟩ [] rfl]
  exact ⟨rfl, rfl, rfl⟩

/-- Witness for C8 (amended): a complete-event merge followed by an error
event and a trailing (ignored) complete event. -/
theorem error_event_stops_and_preserves_witness :
    (runEvents initRun
      ([.completeEv (some [("AAPL", [("a1", ⟨some "bullish", some 80, none⟩)])])] ++
        .errorEv (some "boom") ::
        [.completeEv (some [("MSFT", [("a2", ⟨some "bearish", some 40, none⟩)])])])).dataset =
      (runEvents initRun
        [.completeEv (some [("AAPL", [("a1", ⟨some "bullish", some 80, none⟩)])])]).dataset :=
  (error_event_stops_and_preserves
    [.completeEv (some [("AAPL", [("a1", ⟨some "bullish", some 80, none⟩)])])]
    [.completeEv (some [("MSFT", [("a2", ⟨some "bearish", some 40, none⟩)])])]
    (some "boom") (by decide)).1

/-! ## C7: the most prominent signal for a ticker -/

/-- C7 counterexample: a lone agent signal carrying the confidence VALUE 0 is
never selected (0 is falsy in JavaScript), so the function returns no signal
although a signal with a confidence value exists. -/
theorem prominent_cex :
    getProminentSignalForTicker "AAPL"
      [some [⟨"AAPL", none, none, [⟨"a1", some "bearish", some 0, none⟩]⟩]] =
      (none, none) ∧
    (none : Option String) ≠ some "bearish" := by
  decide

/-- An agent signal passes the gate when it has a truthy (non-zero)
confidence. -/
def agentGate (a : AgentSignalDetail) : Option (Option String × ℚ) :=
  match a.confidence with
  | some c => if c ≠ 0 then some (a.signal, c) else none
  | none => none

/-- The gated candidate list contributed by one item (see `itemCands`). -/
def itemCands (ticker : String) (item : AnalysisDataItem) :
    List (Option String × ℚ) :=
  if item.ticker = ticker then
    (match item.signal, item.confidence with
     | some s, some c => if s ≠ "" ∧ c ≠ 0 then [(some s, c)] else []
     | _, _ => []) ++
    item.agent_signals.filterMap agentGate
  else []

/-- All gated candidates of a dataset for a ticker, in iteration order. -/
def allCands (ticker : String) (entries : List (Option (List AnalysisDataItem))) :
    List (Option String × ℚ) :=
  (entries.map (fun e =>
    match e with
    | some items => (items.map (itemCands ticker)).flatten
    | none => [])).flatten

/-- The comparison step on gated candidates. -/
def promStep (st p : Option String × ℚ) : Option String × ℚ :=
  if p.2 > st.2 then p else st

/-- Claim-side selection, written from the claim's words: the first candidate
whose confidence is at least every candidate's confidence (i.e. the
numerically highest confidence, ties broken by first-seen order). -/
def claimProminent (cands : List (Option String × ℚ)) :
    Option String × Option ℚ :=
  match cands.find? (fun p => decide (∀ q ∈ cands, q.2 ≤ p.2)) with
  | some p => (p.1, some p.2)
  | none => (none, none)

/-- The agent-signal inner fold equals the candidate fold over the gated
agent candidates. -/
theorem agent_fold_eq (l : List AgentSignalDetail) (st : Option String × ℚ) :
    l.foldl agentStep st = (l.filterMap agentGate).foldl promStep st := by
  induction l generalizing st with
  | nil => rfl
  | cons a rest ih =>
    rw [List.foldl_cons, List.filterMap_cons]
    cases hc : a.confidence with
    | none =>
      have h1 : agentStep st a = st := by simp [agentStep, hc]
      have h2 : agentGate a = none := by simp [agentGate, hc]
      rw [h1, h2]
      exact ih st
    | some c =>
      by_cases h0 : c = 0
      · have h1 : agentStep st a = st := by simp [agentStep, hc, h0]
        have h2 : agentGate a = none := by simp [agentGate, hc, h0]
        rw [h1, h2]
        exact ih st
      · have h1 : agentStep st a = promStep st (a.signal, c) := by
          simp only [agentStep, hc, promStep]
          by_cases hgt : c > st.2
          · simp [h0, hgt]
          · simp [h0, hgt]
        have h2 : agentGate a = some (a.signal, c) := by simp [agentGate, hc, h0]
        rw [h1, h2]
        exact ih (promStep st (a.signal, c))

/-- Scanning one item equals folding its gated candidates. -/
theorem scanItem_eq (ticker : String) (st : Option String × ℚ)
    (item : AnalysisDataItem) :
    scanItem ticker st item = (itemCands ticker item).foldl promStep st := by
  by_cases ht : item.ticker = ticker
  · rw [scanItem, itemCands, if_pos ht, if_pos ht, List.foldl_append, agent_fold_eq]
    congr 1
    cases hs : item.signal with
    | none => rfl
    | some s =>
      cases hc : item.confidence with
      | none => rfl
      | some c =>
        dsimp only
        by_cases hgate : s ≠ "" ∧ c ≠ 0
        · have h1 : (if s ≠ "" ∧ c ≠ 0 then [((some s : Option String), c)] else []) =
              [(some s, c)] := if_pos hgate
          rw [h1, List.foldl_cons, List.foldl_nil]
          simp only [promStep]
          by_cases hgt : c > st.2
          · simp [hgate.1, hgate.2, hgt]
          · simp [hgate.1, hgate.2, hgt]
        · have h1 : (if s ≠ "" ∧ c ≠ 0 then [((some s : Option String), c)] else []) = [] :=
            if_neg hgate
          have h2 : ¬ (s ≠ "" ∧ c ≠ 0 ∧ c > st.2) := by tauto
          rw [h1, List.foldl_nil]
          simp [h2]
  · rw [scanItem, itemCands, if_neg ht, if_neg ht, List.foldl_nil]

/-- Folding candidates over a flattened list of lists. -/
theorem foldl_promStep_flatten (ls : List (List (Option String × ℚ)))
    (st : Option String × ℚ) :
    ls.flatten.foldl promStep st = ls.foldl (fun b l => l.foldl promStep b) st := by
  induction ls generalizing st with
  | nil => rfl
  | cons l rest ih => simp [List.flatten_cons, List.foldl_append, ih]

/-- The running maximum of candidate confidences. -/
def maxFold (l : List (Option String × ℚ)) (b : ℚ) : ℚ :=
  l.foldl (fun h p => max h p.2) b

/-- The confidence component of the candidate fold is the running maximum. -/
theorem promFold_snd (l : List (Option String × ℚ)) (st : Option String × ℚ) :
    (l.foldl promStep st).2 = maxFold l st.2 := by
  induction l generalizing st with
  | nil => rfl
  | cons p t ih =>
    have hstep : (promStep st p).2 = max st.2 p.2 := by
      simp only [promStep]
      by_cases h : p.2 > st.2
      · rw [if_pos h]
        exact (max_eq_right (le_of_lt h)).symm
      · rw [if_neg h]
        exact (max_eq_left (not_lt.mp h)).symm
    rw [List.foldl_cons, ih, hstep]
    rfl

/-- The base is a lower bound of the running maximum. -/
theorem le_maxFold_base (l : List (Option String × ℚ)) (b : ℚ) :
    b ≤ maxFold l b := by
  induction l generalizing b with
  | nil => exact le_refl b
  | cons p t ih => exact le_trans (le_max_left b p.2) (ih (max b p.2))

/-- Every candidate's confidence is bounded by the running maximum. -/
theorem mem_le_maxFold (l : List (Option String × ℚ)) (b : ℚ)
    (q : Option String × ℚ) : q ∈ l → q.2 ≤ maxFold l b := by
  induction l generalizing b with
  | nil =>
    intro hq
    simp at hq
  | cons p t ih =>
    intro hq
    rcases List.mem_cons.mp hq with rfl | hq2
    · exact le_trans (le_max_right b q.2) (le_maxFold_base t (max b q.2))
    · exact ih (max b p.2) hq2

/-- The running maximum is the base or is attained by some candidate. -/
theorem maxFold_cases (l : List (Option String × ℚ)) (b : ℚ) :
    maxFold l b = b ∨ ∃ q ∈ l, maxFold l b = q.2 := by
  induction l generalizing b with
  | nil => exact Or.inl rfl
  | cons p t ih =>
    have hcons : maxFold (p :: t) b = maxFold t (max b p.2) := rfl
    rcases ih (max b p.2) with h | ⟨q, hq, hqe⟩
    · rcases max_choice b p.2 with hm | hm
      · exact Or.inl (by rw [hcons, h, hm])
      · exact Or.inr ⟨p, by simp, by rw [hcons, h, hm]⟩
    · exact Or.inr ⟨q, by simp [hq], by rw [hcons]; exact hqe⟩

/-- Candidates never exceeding the current best leave the fold unchanged. -/
theorem promFold_no_gain (l : List (Option String × ℚ)) (st : Option String × ℚ)
    (h : ∀ p ∈ l, p.2 ≤ st.2) : l.foldl promStep st = st := by
  induction l with
  | nil => rfl
  | cons p t ih =>
    have hstep : promStep st p = st := by
      simp only [promStep]
      rw [if_neg (not_lt.mpr (h p (by simp)))]
    rw [List.foldl_cons, hstep]
    exact ih (fun q hq => h q (by simp [hq]))

/-- The fold's winner is the FIRST candidate attaining the overall maximum
confidence whenever the maximum improves on the start state. -/
theorem promFold_find_first (l : List (Option String × ℚ)) (st : Option String × ℚ)
    (hgt : st.2 < (l.foldl promStep st).2) :
    l.find? (fun p => p.2 = (l.foldl promStep st).2) = some (l.foldl promStep st) := by
  induction l generalizing st with
  | nil => exact absurd hgt (lt_irrefl _)
  | cons p t ih =>
    rw [List.foldl_cons] at hgt ⊢
    by_cases hp : p.2 = (t.foldl promStep (promStep st p)).2
    · have hpgt : p.2 > st.2 := by rw [hp]; exact hgt
      have hst : promStep st p = p := by simp only [promStep]; rw [if_pos hpgt]
      rw [hst] at hp hgt ⊢
      have hbound : ∀ q ∈ t, q.2 ≤ p.2 := by
        intro q hq
        rw [hp, promFold_snd]
        exact mem_le_maxFold t p.2 q hq
      rw [promFold_no_gain t p hbound] at hp ⊢
      rw [List.find?_cons]
      simp
    · have hple : p.2 ≤ (t.foldl promStep (promStep st p)).2 := by
        rw [promFold_snd]
        refine le_trans ?_ (le_maxFold_base t (promStep st p).2)
        simp only [promStep]
        by_cases h : p.2 > st.2
        · rw [if_pos h]
        · rw [if_neg h]
          exact not_lt.mp h
      have hplt : p.2 < (t.foldl promStep (promStep st p)).2 := lt_of_le_of_ne hple hp
      have hstlt : (promStep st p).2 < (t.foldl promStep (promStep st p)).2 := by
        by_cases h : p.2 > st.2
        · have heq : promStep st p = p := by simp only [promStep]; rw [if_pos h]
          rw [heq] at hplt ⊢
          exact hplt
        · have heq : promStep st p = st := by simp only [promStep]; rw [if_neg h]
          rw [heq] at hgt ⊢
          exact hgt
      rw [List.find?_cons]
      simp only [hp, decide_False]
      exact ih (promStep st p) hstlt

/-- `find?` only depends on the predicate's values on the list. -/
theorem find?_pred_congr {α : Type} (l : List α) (f g : α → Bool)
    (h : ∀ x ∈ l, f x = g x) : l.find? f = l.find? g := by
  induction l with
  | nil => rfl
  | cons x t ih =>
    rw [List.find?_cons, List.find?_cons, h x (by simp)]
    cases g x with
    | true => rfl
    | false => exact ih (fun y hy => h y (by simp [hy]))

/-- The whole nested scan equals the candidate fold over all gated
candidates. -/
theorem entries_fold_eq (ticker : String)
    (entries : List (Option (List AnalysisDataItem))) (st : Option String × ℚ) :
    entries.foldl
      (fun st e =>
        match e with
        | some items => items.foldl (scanItem ticker) st
        | none => st) st =
    (allCands ticker entries).foldl promStep st := by
  induction entries generalizing st with
  | nil => rfl
  | cons e rest ih =>
    have hsplit : allCands ticker (e :: rest) =
        (match e with
         | some items => (items.map (itemCands ticker)).flatten
         | none => []) ++ allCands ticker rest := by
      simp [allCands]
    rw [List.foldl_cons, hsplit, List.foldl_append]
    cases e with
    | none => exact ih st
    | some items =>
      have hitems : items.foldl (scanItem ticker) st =
          ((items.map (itemCands ticker)).flatten).foldl promStep st := by
        rw [foldl_promStep_flatten, List.foldl_map]
        exact List.foldl_ext _ _ _ (fun b item _ => scanItem_eq ticker b item)
      rw [← hitems]
      exact ih _

/-- C7 (amended): when every gated candidate confidence is positive (the
spec's declared range is [0,100], and 0 or absent confidences are falsy and
skipped), the computed most-prominent signal is the first candidate whose
confidence is at least every other candidate's — i.e. the numerically
highest confidence with ties broken by first-seen order — and no signal at
all when no candidate has a truthy confidence; a signal whose confidence is
absent OR ZERO is never returned in preference to one with a positive
confidence. -/
theorem prominent_amended (ticker : String)
    (entries : List (Option (List AnalysisDataItem)))
    (hpos : ∀ p ∈ allCands ticker entries, 0 < p.2) :
    getProminentSignalForTicker ticker entries =
      claimProminent (allCands ticker entries) := by
  simp only [getProminentSignalForTicker]
  rw [entries_fold_eq ticker entries ((none : Option String), (-1 : ℚ))]
  by_cases hL0 : allCands ticker entries = []
  · rw [hL0]
    simp [claimProminent]
  · obtain ⟨p, hp⟩ := List.exists_mem_of_ne_nil _ hL0
    have hsnd : ((allCands ticker entries).foldl promStep
        ((none : Option String), (-1 : ℚ))).2 = maxFold (allCands ticker entries) (-1) :=
      promFold_snd _ _
    have hppos : 0 < p.2 := hpos p hp
    have hFge : p.2 ≤ ((allCands ticker entries).foldl promStep
        ((none : Option String), (-1 : ℚ))).2 := by
      rw [hsnd]
      exact mem_le_maxFold _ (-1) p hp
    have hFgt : (-1 : ℚ) < ((allCands ticker entries).foldl promStep
        ((none : Option String), (-1 : ℚ))).2 :=
      lt_of_lt_of_le (by linarith) hFge
    have hne : ¬ (((allCands ticker entries).foldl promStep
        ((none : Option String), (-1 : ℚ))).2 = -1) := by
      intro h
      rw [h] at hFgt
      exact lt_irrefl _ hFgt
    have hfind := promFold_find_first (allCands ticker entries)
      ((none : Option String), (-1 : ℚ)) hFgt
    have hiff : ∀ x ∈ allCands ticker entries,
        (decide (∀ q ∈ allCands ticker entries, q.2 ≤ x.2)) =
        (decide (x.2 = ((allCands ticker entries).foldl promStep
          ((none : Option String), (-1 : ℚ))).2)) := by
      intro x hx
      apply decide_eq_decide.mpr
      constructor
      · intro hall
        have hxle : x.2 ≤ ((allCands ticker entries).foldl promStep
            ((none : Option String), (-1 : ℚ))).2 := by
          rw [hsnd]
          exact mem_le_maxFold _ (-1) x hx
        refine le_antisymm hxle ?_
        rcases maxFold_cases (allCands ticker entries) (-1) with h | ⟨q, hq, hqe⟩
        · rw [← hsnd] at h
          exact absurd h hne
        · rw [hsnd, hqe]
          exact hall q hq
      · intro hxe q hq
        rw [hxe, hsnd]
        exact mem_le_maxFold _ (-1) q hq
    rw [claimProminent, find?_pred_congr _ _ _ hiff, hfind, if_neg hne]

/-- Witness for C7 (amended) on a dataset with three agent signals of
distinct confidences plus one with confidence 0. -/
theorem prominent_amended_witness :
    getProminentSignalForTicker "AAPL"
      [some [⟨"AAPL", none, none,
        [⟨"a1", some "neutral", some 50, none⟩,
         ⟨"a2", some "bullish", some 80, none⟩,
         ⟨"a3", some "bearish", some 0, none⟩,
         ⟨"a4", some "bullish", some 80, none⟩]⟩]] =
      claimProminent (allCands "AAPL"
        [some [⟨"AAPL", none, none,
          [⟨"a1", some "neutral", some 50, none⟩,
           ⟨"a2", some "bullish", some 80, none⟩,
           ⟨"a3", some "bearish", some 0, none⟩,
           ⟨"a4", some "bullish", some 80, none⟩]⟩]]) :=
  prominent_amended "AAPL"
    [some [⟨"AAPL", none, none,
      [⟨"a1", some "neutral", some 50, none⟩,
       ⟨"a2", some "bullish", some 80, none⟩,
       ⟨"a3", some "bearish", some 0, none⟩,
       ⟨"a4", some "bullish", some 80, none⟩]⟩]]
    (by decide)

/-! ## C2/C3: buffer splitting lemmas -/

/-- No occurrence of the `"\n\n"` separator. -/
def noNN : JStr → Bool
  | [] => true
  | [_] => true
  | a :: b :: r => if a = '\n' ∧ b = '\n' then false else noNN (b :: r)

/-- A successful split decomposes the buffer. -/
theorem splitSep_some : ∀ (s m r : JStr), splitSep s = some (m, r) →
    s = m ++ '\n' :: '\n' :: r := by
  intro s
  induction s with
  | nil =>
    intro m r h
    simp [splitSep] at h
  | cons a s2 ih =>
    cases s2 with
    | nil =>
      intro m r h
      exact Option.noConfusion ((rfl : splitSep [a] = none) ▸ h)
    | cons b s3 =>
      intro m r h
      simp only [splitSep] at h
      by_cases hab : a = '\n' ∧ b = '\n'
      · rw [if_pos hab] at h
        obtain ⟨hm, hr⟩ := Prod.mk.injEq .. ▸ Option.some.inj h
        rw [← hm, ← hr, hab.1, hab.2]
        rfl
      · rw [if_neg hab] at h
        cases hsp : splitSep (b :: s3) with
        | none => rw [hsp] at h; simp at h
        | some p =>
          rw [hsp] at h
          simp only [Option.map_some', Option.some.injEq] at h
          obtain ⟨hm, hr⟩ := Prod.mk.injEq .. ▸ h
          rw [← hm, ← hr]
          have := ih p.1 p.2 (by rw [hsp])
          rw [List.cons_append, ← this]

/-- The message produced by a split contains no separator, nor does it end
in a newline (the split is at the FIRST separator occurrence). -/
theorem splitSep_some_noNN : ∀ (s m r : JStr), splitSep s = some (m, r) →
    noNN (m ++ ['\n']) = true := by
  intro s
  induction s with
  | nil =>
    intro m r h
    simp [splitSep] at h
  | cons a s2 ih =>
    cases s2 with
    | nil =>
      intro m r h
      exact Option.noConfusion ((rfl : splitSep [a] = none) ▸ h)
    | cons b s3 =>
      intro m r h
      simp only [splitSep] at h
      by_cases hab : a = '\n' ∧ b = '\n'
      · rw [if_pos hab] at h
        obtain ⟨hm, _⟩ := Prod.mk.injEq .. ▸ Option.some.inj h
        rw [← hm]
        rfl
      · rw [if_neg hab] at h
        cases hsp : splitSep (b :: s3) with
        | none => rw [hsp] at h; simp at h
        | some p =>
          rw [hsp] at h
          simp only [Option.map_some', Option.some.injEq] at h
          obtain ⟨hm, hr⟩ := Prod.mk.injEq .. ▸ h
          have hdecomp := splitSep_some (b :: s3) p.1 p.2 (by rw [hsp])
          have hrec := ih p.1 p.2 (by rw [hsp])
          rw [← hm]
          cases hp1 : p.1 with
          | nil =>
            have hb : b = '\n' := by
              rw [hp1] at hdecomp
              exact (List.cons.injEq .. ▸ hdecomp).1
            have ha : ¬ a = '\n' := fun hA => hab ⟨hA, hb⟩
            simp [noNN, ha]
          | cons c m1 =>
            have hb : b = c := by
              rw [hp1] at hdecomp
              exact (List.cons.injEq .. ▸ hdecomp).1
            have hac : ¬ (a = '\n' ∧ c = '\n') := by
              intro hcc
              exact hab ⟨hcc.1, hb ▸ hcc.2⟩
            rw [hp1] at hrec
            simp only [List.cons_append, noNN, hac, if_false]
            exact hrec

/-- Completeness: a separator placed after a separator-free message is found
exactly there. -/
theorem splitSep_complete : ∀ (m r : JStr), noNN (m ++ ['\n']) = true →
    splitSep (m ++ '\n' :: '\n' :: r) = some (m, r) := by
  intro m
  induction m with
  | nil =>
    intro r _
    simp [splitSep]
  | cons a m2 ih =>
    intro r hno
    cases m2 with
    | nil =>
      have ha : ¬ a = '\n' := by
        intro hA
        simp [noNN, hA] at hno
      simp only [List.nil_append, List.cons_append, splitSep]
      simp [ha]
    | cons c m1 =>
      have hac : ¬ (a = '\n' ∧ c = '\n') := by
        intro hcc
        simp [noNN, hcc.1, hcc.2] at hno
      have hno2 : noNN ((c :: m1) ++ ['\n']) = true := by
        simp only [List.cons_append, noNN, hac, if_false] at hno
        exact hno
      have hi := ih r hno2
      simp only [List.cons_append] at hi
      simp only [List.cons_append, splitSep, hac, if_false, List.append_eq]
      rw [hi]
      rfl

/-- A split strictly shrinks the buffer. -/
theorem splitSep_length (s m r : JStr) (h : splitSep s = some (m, r)) :
    r.length + 2 ≤ s.length := by
  have := splitSep_some s m r h
  subst this
  simp

/-- Without a complete message in the buffer, draining is a no-op at any
fuel. -/
theorem drainFuel_none (st : SState) (h : splitSep st.buffer = none) :
    ∀ n, drainFuel n st = st := by
  intro n
  cases n with
  | zero => rfl
  | succ k => simp [drainFuel, h]

/-- Any fuel at least the buffer length drains the same way. -/
theorem drainFuel_stable : ∀ (n m : Nat) (st : SState),
    st.buffer.length ≤ n → st.buffer.length ≤ m →
    drainFuel n st = drainFuel m st := by
  intro n
  induction n with
  | zero =>
    intro m st hn _
    have hb : st.buffer = [] := List.length_eq_zero.mp (Nat.le_zero.mp hn)
    have hnone : splitSep st.buffer = none := by rw [hb]; rfl
    rw [drainFuel_none st hnone, drainFuel_none st hnone]
  | succ k ih =>
    intro m st hn hm
    cases hsp : splitSep st.buffer with
    | none => rw [drainFuel_none st hsp, drainFuel_none st hsp]
    | some p =>
      have hlen := splitSep_length st.buffer p.1 p.2 (by rw [hsp])
      cases m with
      | zero =>
        exfalso
        have : st.buffer = [] := List.length_eq_zero.mp (Nat.le_zero.mp hm)
        rw [this] at hsp
        exact Option.noConfusion hsp
      | succ j =>
        simp only [drainFuel, hsp]
        exact ih j { processMessage st p.1 with buffer := p.2 }
          (by simpa using by omega) (by simpa using by omega)

/-- The one-step unfolding of `drainAll`. -/
theorem drainAll_eq (st : SState) :
    drainAll st =
      match splitSep st.buffer with
      | none => st
      | some (m, r) => drainAll { processMessage st m with buffer := r } := by
  cases hsp : splitSep st.buffer with
  | none => exact drainFuel_none st hsp _
  | some p =>
    have hlen := splitSep_length st.buffer p.1 p.2 (by rw [hsp])
    have hpos : 1 ≤ st.buffer.length := by omega
    obtain ⟨k, hk⟩ : ∃ k, st.buffer.length = k + 1 :=
      ⟨st.buffer.length - 1, by omega⟩
    unfold drainAll
    rw [hk]
    simp only [drainFuel, hsp]
    exact drainFuel_stable k _ _ (by simpa using by omega) (by simp)

/-- `processMessage` never touches the buffer; updating the buffer commutes
with it. -/
theorem processMessage_buffer (st : SState) (m b : JStr) :
    processMessage { st with buffer := b } m =
      { processMessage st m with buffer := b } := by
  cases h1 : stripPre dataMark m with
  | none => simp [processMessage, h1]
  | some j =>
    cases h2 : decodeEnvelope j with
    | none => simp [processMessage, h1, h2]
    | some nv =>
      obtain ⟨n, pl⟩ := nv
      cases h3 : matchType n with
      | none => simp [processMessage, h1, h2, h3]
      | some et => cases et <;> simp [processMessage, h1, h2, h3]

/-- A drained buffer holds no complete message. -/
theorem drainAll_no_sep (st : SState) :
    splitSep (drainAll st).buffer = none := by
  have main : ∀ (n : Nat) (st : SState), st.buffer.length ≤ n →
      splitSep (drainAll st).buffer = none := by
    intro n
    induction n with
    | zero =>
      intro st hn
      have hb : st.buffer = [] := List.length_eq_zero.mp (Nat.le_zero.mp hn)
      have hnone : splitSep st.buffer = none := by rw [hb]; rfl
      rw [drainAll_eq, hnone]
      exact hnone
    | succ k ih =>
      intro st hn
      cases hsp : splitSep st.buffer with
      | none =>
        rw [drainAll_eq, hsp]
        exact hsp
      | some p =>
        have hlen := splitSep_length st.buffer p.1 p.2 (by rw [hsp])
        rw [drainAll_eq, hsp]
        exact ih { processMessage st p.1 with buffer := p.2 } (by simpa using by omega)
  exact main st.buffer.length st (le_refl _)

/-- Draining is idempotent. -/
theorem drainAll_idem (st : SState) : drainAll (drainAll st) = drainAll st := by
  rw [drainAll_eq (drainAll st), drainAll_no_sep st]

/-- Appending input and draining factors through draining first. -/
theorem drain_append : ∀ (n : Nat) (st : SState) (extra : JStr),
    st.buffer.length ≤ n →
    drainAll { st with buffer := st.buffer ++ extra } =
      drainAll { drainAll st with buffer := (drainAll st).buffer ++ extra } := by
  intro n
  induction n with
  | zero =>
    intro st extra hn
    have hb : st.buffer = [] := List.length_eq_zero.mp (Nat.le_zero.mp hn)
    have hnone : splitSep st.buffer = none := by rw [hb]; rfl
    rw [drainAll_eq st, hnone]
  | succ k ih =>
    intro st extra hn
    cases hsp : splitSep st.buffer with
    | none =>
      rw [drainAll_eq st, hsp]
    | some p =>
      have hdec := splitSep_some st.buffer p.1 p.2 (by rw [hsp])
      have hno := splitSep_some_noNN st.buffer p.1 p.2 (by rw [hsp])
      have hlen := splitSep_length st.buffer p.1 p.2 (by rw [hsp])
      have hsplit2 : splitSep (st.buffer ++ extra) = some (p.1, p.2 ++ extra) := by
        rw [hdec]
        rw [List.append_assoc, List.cons_append, List.cons_append]
        exact splitSep_complete p.1 (p.2 ++ extra) hno
      have hstep : drainAll { st with buffer := st.buffer ++ extra } =
          drainAll { processMessage st p.1 with buffer := p.2 ++ extra } := by
        rw [drainAll_eq { st with buffer := st.buffer ++ extra }]
        simp only [hsplit2]
        rw [processMessage_buffer]
      have hstep2 : drainAll st = drainAll { processMessage st p.1 with buffer := p.2 } := by
        rw [drainAll_eq st, hsp]
      rw [hstep, hstep2]
      have := ih { processMessage st p.1 with buffer := p.2 } extra (by simpa using by omega)
      simpa using this

/-- Chunk arrivals can be merged: feeding two chunks equals feeding their é
concatenation. -/
theorem feed_append (st : SState) (a b : JStr) :
    feedChunk (feedChunk st a) b = feedChunk st (a ++ b) := by
  unfold feedChunk
  rw [← List.append_assoc]
  exact (drain_append (st.buffer ++ a).length { st with buffer := st.buffer ++ a } b
    (by simp)).symm

/-- Feeding a chunk list equals feeding the single concatenated chunk,
starting from a drained state. -/
theorem feedAll_flatten (st : SState) (chunks : List JStr)
    (h : drainAll st = st) :
    feedAll st chunks = feedChunk st chunks.flatten := by
  induction chunks generalizing st with
  | nil =>
    show st = feedChunk st []
    unfold feedChunk
    have he : ({ st with buffer := st.buffer ++ [] } : SState) = st := by simp
    rw [he, h]
  | cons c cs ih =>
    have hstep : feedAll st (c :: cs) = feedAll (feedChunk st c) cs := rfl
    rw [hstep, ih (feedChunk st c) (drainAll_idem _), feed_append,
      List.flatten_cons]

/-- The pure dispatch of one recognized frame (what the SSE loop does to the
component state per parsed event). -/
def stepFrame (st : SState) (f : Frame) : SState :=
  match f.etype with
  | .startE =>
    { st with
      trace := st.trace ++ [f]
      progressMessages := st.progressMessages ++ [f] }
  | .progressE =>
    { st with
      trace := st.trace ++ [f]
      progressMessages := st.progressMessages ++ [f] }
  | .completeE => { st with trace := st.trace ++ [f], finalResult := some f.payload }
  | .errorE => { st with trace := st.trace ++ [f], error := some f.payload }

/-- Stripping an appended marker succeeds with the rest. -/
theorem stripPre_append : ∀ (p s : JStr), stripPre p (p ++ s) = some s := by
  intro p
  induction p with
  | nil => intro s; rfl
  | cons c ps ih =>
    intro s
    simp only [List.cons_append, stripPre, if_pos rfl]
    exact ih s

/-- takeWhile stops exactly at the first quote after a quote-free run. -/
theorem takeWhile_til_quote : ∀ (a z : JStr), (∀ c ∈ a, c ≠ '"') →
    (a ++ '"' :: z).takeWhile (fun c => c ≠ '"') = a := by
  intro a
  induction a with
  | nil =>
    intro z _
    simp [List.takeWhile]
  | cons c a2 ih =>
    intro z h
    have hcb : (decide (c ≠ '"')) = true := by
      simp [h c (by simp)]
    simp only [List.cons_append, List.takeWhile_cons, hcb, if_true]
    rw [ih z (fun x hx => h x (by simp [hx]))]

/-- The type names contain no quote character. -/
theorem typeName_no_quote (et : EvType) : ∀ c ∈ typeName et, c ≠ '"' := by
  cases et <;> decide

/-- The envelope codec inverts serialization. -/
theorem decode_envelope (f : Frame) :
    decodeEnvelope (envelope f) = some (typeName f.etype, f.payload) := by
  have hassoc : envelope f =
      envHead ++ (typeName f.etype ++ (envMid ++ (f.payload ++ [rbrace]))) := by
    simp [envelope, List.append_assoc]
  have h1 : stripPre envHead (envelope f) =
      some (typeName f.etype ++ (envMid ++ (f.payload ++ [rbrace]))) := by
    rw [hassoc, stripPre_append]
  have hmid : envMid = '"' :: ", \"data\": ".toList := by decide
  have htw : (typeName f.etype ++ (envMid ++ (f.payload ++ [rbrace]))).takeWhile
      (fun c => c ≠ '"') = typeName f.etype := by
    rw [hmid, List.cons_append]
    exact takeWhile_til_quote (typeName f.etype) _ (typeName_no_quote f.etype)
  have hdrop : (typeName f.etype ++ (envMid ++ (f.payload ++ [rbrace]))).drop
      (typeName f.etype).length = envMid ++ (f.payload ++ [rbrace]) :=
    List.drop_left _ _
  have h2 : stripPre envMid (envMid ++ (f.payload ++ [rbrace])) =
      some (f.payload ++ [rbrace]) := stripPre_append _ _
  have h3 : (f.payload ++ [rbrace]).getLast? = some rbrace := List.getLast?_concat _
  simp only [decodeEnvelope, h1, htw, hdrop, h2, h3, List.dropLast_concat,
    if_pos rfl, if_true]

/-- The SimpleRunForm matcher accepts exactly the long-form names of the
four event types. -/
theorem matchType_typeName (et : EvType) : matchType (typeName et) = some et := by
  cases et <;> decide

/-- Processing one encoded message performs the frame dispatch. -/
theorem processMessage_encoded (st : SState) (f : Frame) :
    processMessage st (dataMark ++ envelope f) = stepFrame st f := by
  have h1 : stripPre dataMark (dataMark ++ envelope f) =
      some (envelope f) := stripPre_append _ _
  unfold processMessage
  rw [h1]
  dsimp only
  rw [decode_envelope]
  dsimp only
  rw [matchType_typeName]
  obtain ⟨et, pl⟩ := f
  cases et <;> rfl

/-- Frame dispatch never touches the buffer. -/
theorem stepFrame_buffer (st : SState) (f : Frame) :
    (stepFrame st f).buffer = st.buffer := by
  cases h : f.etype <;> simp [stepFrame, h]

/-- Folded frame dispatch never touches the buffer. -/
theorem foldl_stepFrame_buffer (fs : List Frame) (st : SState) :
    (fs.foldl stepFrame st).buffer = st.buffer := by
  induction fs generalizing st with
  | nil => rfl
  | cons f rest ih => rw [List.foldl_cons, ih, stepFrame_buffer]

/-- Frame dispatch appends the frame to the trace. -/
theorem stepFrame_trace (st : SState) (f : Frame) :
    (stepFrame st f).trace = st.trace ++ [f] := by
  cases h : f.etype <;> simp [stepFrame, h]

/-- Folded frame dispatch appends the frames to the trace in order. -/
theorem foldl_stepFrame_trace (fs : List Frame) (st : SState) :
    (fs.foldl stepFrame st).trace = st.trace ++ fs := by
  induction fs generalizing st with
  | nil => simp
  | cons f rest ih =>
    rw [List.foldl_cons, ih, stepFrame_trace, List.append_assoc, List.singleton_append]

/-- A newline-free message followed by one newline has no separator. -/
theorem noNN_of_no_nl (m : JStr) (h : '\n' ∉ m) : noNN (m ++ ['\n']) = true := by
  induction m with
  | nil => rfl
  | cons a m2 ih =>
    have ha : a ≠ '\n' := fun hA => h (by simp [hA])
    have h2 : '\n' ∉ m2 := fun hx => h (by simp [hx])
    cases m2 with
    | nil => simp [noNN, ha]
    | cons c m3 =>
      have hc : ¬ (a = '\n' ∧ c = '\n') := fun hcc => ha hcc.1
      have hrec := ih h2
      simp only [List.cons_append, noNN, hc, if_false] at hrec ⊢
      exact hrec

/-- The encoded message of a frame with a newline-free payload contains no
newline. -/
theorem msg_no_nl (f : Frame) (h : '\n' ∉ f.payload) :
    '\n' ∉ dataMark ++ envelope f := by
  intro hmem
  rw [List.mem_append] at hmem
  rcases hmem with h1 | h1
  · exact absurd h1 (by decide)
  · simp only [envelope, List.mem_append, List.mem_singleton] at h1
    rcases h1 with (((ha | hb) | hc) | hd) | he
    · exact absurd ha (by decide)
    · revert hb
      cases f.etype <;> decide
    · exact absurd hc (by decide)
    · exact h hd
    · exact absurd he (by decide)

/-- A record with its buffer set to its own buffer value is itself. -/
theorem sstate_set_buffer (st : SState) (b : JStr) (h : st.buffer = b) :
    ({ st with buffer := b } : SState) = st := by
  obtain ⟨b0, t, p, fr, e⟩ := st
  simp only at h
  rw [← h]

/-- Feeding the encoding of a frame list into a drained-empty state performs
exactly the per-frame dispatch. -/
theorem run_enc : ∀ (fs : List Frame) (st : SState), st.buffer = [] →
    (∀ f ∈ fs, '\n' ∉ f.payload) →
    feedChunk st (encodeFrames fs) = fs.foldl stepFrame st := by
  intro fs
  induction fs with
  | nil =>
    intro st hb _
    show feedChunk st [] = st
    unfold feedChunk
    have he : ({ st with buffer := st.buffer ++ [] } : SState) = st := by simp
    rw [he, drainAll_eq, hb]
    rfl
  | cons f rest ih =>
    intro st hb hnl
    have henc : encodeFrames (f :: rest) = encodeFrame f ++ encodeFrames rest := by
      simp [encodeFrames]
    rw [henc, ← feed_append]
    have hone : feedChunk st (encodeFrame f) = stepFrame st f := by
      unfold feedChunk
      have hnl1 : '\n' ∉ dataMark ++ envelope f := msg_no_nl f (hnl f (by simp))
      have hnoNN : noNN ((dataMark ++ envelope f) ++ ['\n']) = true :=
        noNN_of_no_nl _ hnl1
      have hbuf : st.buffer ++ encodeFrame f =
          (dataMark ++ envelope f) ++ '\n' :: '\n' :: ([] : JStr) := by
        rw [hb, List.nil_append]
        simp [encodeFrame]
      have hsp : splitSep (st.buffer ++ encodeFrame f) =
          some (dataMark ++ envelope f, []) := by
        rw [hbuf]
        exact splitSep_complete _ _ hnoNN
      rw [drainAll_eq]
      simp only [hsp]
      rw [processMessage_buffer, processMessage_encoded]
      have hfix : ({ ({ stepFrame st f with buffer := st.buffer ++ encodeFrame f } : SState)
          with buffer := ([] : JStr) } : SState) = stepFrame st f :=
        sstate_set_buffer (stepFrame st f) ([] : JStr)
          (by rw [stepFrame_buffer, hb])
      rw [hfix, drainAll_eq, stepFrame_buffer, hb]
      rfl
    rw [hone]
    exact ih (stepFrame st f) (by rw [stepFrame_buffer, hb])
      (fun g hg => hnl g (by simp [hg]))

/-- C2 counterexample: one StartEvent frame encoded in the claim's wire
format `event: <type>\ndata: <json>\n\n` is parsed by NEITHER consumer: the
SimpleRunForm loop only processes messages that START with `data: ` (so the
frame is dropped whole), the watchlist handler splits on the literal
characters backslash-n (so real newlines never yield lines), and the
SimpleRunForm type matcher rejects the short name `start`. -/
theorem stream_roundtrip_cex :
    (feedAll initS [specWireFrame (typeName .startE) "1".toList]).trace = [] ∧
    (appFeedChunk [] (specWireFrame "start".toList "1".toList)).1 = [] ∧
    matchType "start".toList = none := by
  decide

/-- C2 (amended): frames encoded in the wire format the SimpleRunForm loop
actually consumes — `data: <json envelope with event_type>\n\n`, long-form
type names — and delivered in ANY chunking are parsed back to exactly the
original frame sequence, with nothing left in the buffer.  (Payloads are
JSON-serialized text and therefore newline-free.) -/
theorem stream_roundtrip (fs : List Frame) (chunks : List JStr)
    (hnl : ∀ f ∈ fs, '\n' ∉ f.payload)
    (hch : chunks.flatten = encodeFrames fs) :
    (feedAll initS chunks).trace = fs ∧ (feedAll initS chunks).buffer = [] := by
  have hinit : drainAll initS = initS := by
    rw [drainAll_eq]
    rfl
  rw [feedAll_flatten initS chunks hinit, hch, run_enc fs initS rfl hnl]
  constructor
  · rw [foldl_stepFrame_trace]
    rfl
  · rw [foldl_stepFrame_buffer]
    rfl

/-- Witness for C2 at a two-frame sequence delivered in two chunks split in
the middle of the first frame. -/
theorem stream_roundtrip_witness :
    (feedAll initS
      [(encodeFrames [⟨.startE, "1".toList⟩, ⟨.completeE, "2".toList⟩]).take 10,
       (encodeFrames [⟨.startE, "1".toList⟩, ⟨.completeE, "2".toList⟩]).drop 10]).trace =
      [⟨.startE, "1".toList⟩, ⟨.completeE, "2".toList⟩] ∧
    (feedAll initS
      [(encodeFrames [⟨.startE, "1".toList⟩, ⟨.completeE, "2".toList⟩]).take 10,
       (encodeFrames [⟨.startE, "1".toList⟩, ⟨.completeE, "2".toList⟩]).drop 10]).buffer =
      [] :=
  stream_roundtrip [⟨.startE, "1".toList⟩, ⟨.completeE, "2".toList⟩] _
    (by decide) (by decide)

/-- Draining an empty buffer is the identity. -/
theorem drainAll_of_empty (st : SState) (h : st.buffer = []) : drainAll st = st := by
  rw [drainAll_eq, h]
  rfl

/-- Dispatch of error-free frames commutes with presetting the error
field. -/
theorem foldl_stepFrame_error_set (fs : List Frame) (st : SState) (e : Option JStr)
    (hne : ∀ f ∈ fs, f.etype ≠ .errorE) :
    fs.foldl stepFrame { st with error := e } =
      { fs.foldl stepFrame st with error := e } := by
  induction fs generalizing st with
  | nil => rfl
  | cons f rest ih =>
    have hstep : stepFrame { st with error := e } f =
        { stepFrame st f with error := e } := by
      cases het : f.etype with
      | startE => simp [stepFrame, het]
      | progressE => simp [stepFrame, het]
      | completeE => simp [stepFrame, het]
      | errorE => exact absurd het (hne f (by simp))
    rw [List.foldl_cons, List.foldl_cons, hstep,
      ih (stepFrame st f) (fun g hg => hne g (by simp [hg]))]

/-- C3 counterexample: a frame whose `data:` payload is not JSON IS dropped
and the following frame IS processed, but the SimpleRunForm handler sets the
run's error state to its parse-failure message — the claim's "the run's
error status is never set because of it" is false. -/
theorem malformed_frame_cex :
    (feedAll initS [("data: this is not json".toList ++ ['\n', '\n']) ++
        encodeFrame ⟨.completeE, "2".toList⟩]).error = some parseFailMsg ∧
    (feedAll initS [("data: this is not json".toList ++ ['\n', '\n']) ++
        encodeFrame ⟨.completeE, "2".toList⟩]).finalResult = some "2".toList ∧
    (feedAll initS [("data: this is not json".toList ++ ['\n', '\n']) ++
        encodeFrame ⟨.completeE, "2".toList⟩]).trace =
      [⟨.completeE, "2".toList⟩] ∧
    some parseFailMsg ≠ (none : Option JStr) := by
  decide

/-- C3 (amended): a stream with one corrupted `data:` frame among valid
frames yields exactly the state of the same stream with the corrupted frame
removed — the frame is dropped, consumption continues, every later frame is
merged — EXCEPT that the error field records the parse failure (in the
SimpleRunForm handler; the watchlist handler only logs). -/
theorem malformed_frame_amended (fs1 fs2 : List Frame) (c : JStr)
    (hnl1 : ∀ f ∈ fs1, '\n' ∉ f.payload) (hnl2 : ∀ f ∈ fs2, '\n' ∉ f.payload)
    (hcnl : '\n' ∉ c) (hbad : decodeEnvelope c = none)
    (hne : ∀ f ∈ fs2, f.etype ≠ .errorE) :
    feedChunk initS (encodeFrames fs1 ++ ((dataMark ++ c) ++ '\n' :: '\n' :: []) ++
        encodeFrames fs2) =
      { feedChunk initS (encodeFrames (fs1 ++ fs2)) with
        error := some parseFailMsg } ∧
    (feedChunk initS (encodeFrames fs1 ++ ((dataMark ++ c) ++ '\n' :: '\n' :: []) ++
        encodeFrames fs2)).trace = fs1 ++ fs2 := by
  have hA : feedChunk initS (encodeFrames fs1) = fs1.foldl stepFrame initS :=
    run_enc fs1 initS rfl hnl1
  have hAbuf : (fs1.foldl stepFrame initS).buffer = [] := by
    rw [foldl_stepFrame_buffer]
    rfl
  have hmid : feedChunk (fs1.foldl stepFrame initS)
      ((dataMark ++ c) ++ '\n' :: '\n' :: []) =
      { fs1.foldl stepFrame initS with error := some parseFailMsg } := by
    unfold feedChunk
    have hnl3 : '\n' ∉ dataMark ++ c := by
      intro hm
      rw [List.mem_append] at hm
      rcases hm with h | h
      · exact absurd h (by decide)
      · exact hcnl h
    have hnoNN := noNN_of_no_nl _ hnl3
    have hsp : splitSep ((fs1.foldl stepFrame initS).buffer ++
        ((dataMark ++ c) ++ '\n' :: '\n' :: [])) = some (dataMark ++ c, []) := by
      rw [hAbuf, List.nil_append]
      exact splitSep_complete _ _ hnoNN
    rw [drainAll_eq]
    simp only [hsp]
    rw [processMessage_buffer]
    have hpm : processMessage (fs1.foldl stepFrame initS) (dataMark ++ c) =
        { fs1.foldl stepFrame initS with error := some parseFailMsg } := by
      unfold processMessage
      rw [stripPre_append]
      dsimp only
      rw [hbad]
    rw [hpm]
    have hfix : ({ ({ ({ fs1.foldl stepFrame initS with error := some parseFailMsg } : SState)
        with buffer := (fs1.foldl stepFrame initS).buffer ++
          ((dataMark ++ c) ++ '\n' :: '\n' :: []) } : SState)
        with buffer := ([] : JStr) } : SState) =
        { fs1.foldl stepFrame initS with error := some parseFailMsg } :=
      sstate_set_buffer ({ fs1.foldl stepFrame initS with error := some parseFailMsg })
        ([] : JStr) hAbuf
    rw [hfix]
    exact drainAll_of_empty _ hAbuf
  have hfin : feedChunk ({ fs1.foldl stepFrame initS with error := some parseFailMsg })
      (encodeFrames fs2) =
      fs2.foldl stepFrame ({ fs1.foldl stepFrame initS with error := some parseFailMsg }) :=
    run_enc fs2 _ hAbuf hnl2
  have hmain : feedChunk initS (encodeFrames fs1 ++
      ((dataMark ++ c) ++ '\n' :: '\n' :: []) ++ encodeFrames fs2) =
      { fs2.foldl stepFrame (fs1.foldl stepFrame initS) with
        error := some parseFailMsg } := by
    rw [← feed_append, ← feed_append, hA, hmid, hfin,
      foldl_stepFrame_error_set fs2 _ _ hne]
  have hclean : feedChunk initS (encodeFrames (fs1 ++ fs2)) =
      fs2.foldl stepFrame (fs1.foldl stepFrame initS) := by
    rw [run_enc (fs1 ++ fs2) initS rfl (by
      intro g hg
      rcases List.mem_append.mp hg with h | h
      · exact hnl1 g h
      · exact hnl2 g h), List.foldl_append]
  refine ⟨by rw [hmain, hclean], ?_⟩
  rw [hmain]
  show (fs2.foldl stepFrame (fs1.foldl stepFrame initS)).trace = fs1 ++ fs2
  rw [foldl_stepFrame_trace, foldl_stepFrame_trace]
  rfl

/-- Witness for C3 at a concrete corrupt frame between two valid frames. -/
theorem malformed_frame_amended_witness :
    (feedChunk initS (encodeFrames [⟨.startE, "1".toList⟩] ++
        ((dataMark ++ "x".toList) ++ '\n' :: '\n' :: []) ++
        encodeFrames [⟨.completeE, "2".toList⟩])).trace =
      [⟨.startE, "1".toList⟩] ++ [⟨.completeE, "2".toList⟩] :=
  (malformed_frame_amended [⟨.startE, "1".toList⟩] [⟨.completeE, "2".toList⟩]
    "x".toList (by decide) (by decide) (by decide) (by decide) (by decide)).2
